import Mathlib

/-!
Verification of the i+1 sentence sequencer (`src/organizer.py`,
class `SentenceOrganizer`).

This file gives a shallow embedding of the organizer's state and of its
operations (`_process_sentence`, `_update_buckets`, `get_next_sentence`,
`learn_sentence`, and the `__init__` loop), translated line by line from the
Python source, and proves the specification claims about them.

Modelling conventions:
  * A Word and a Sentence are both `String`s, as in the source.
  * The frequency table `word_ranks` is `String → Option ℕ`; `none` models a
    word absent from the table, and `rankOf` maps it to `⊤ : WithTop ℕ`,
    mirroring `self.word_ranks.get(w, float('inf'))`.
  * `sentence_data` and `word_to_sentences` are modelled as functions into
    `Option _`; deleting a key stores `none`.  Python's `defaultdict(set)`
    read is modelled by `(· ).getD ∅`; reading a missing key and then
    deleting it (as `_update_buckets` does) has the same net effect in both
    semantics.
  * `sentence_buckets` is one dict in Python whose key-1 entry is a list and
    whose other entries are sets; here it is split into the `bucket1` list
    and the `buckets : ℕ → Finset String` map, with the invariant that the
    function entries at keys 0 and 1 stay empty (the source never writes
    them).
  * Python's in-place `list.sort(key=...)` is a stable sort; it is modelled
    with `List.insertionSort` (also stable) on the `max_rank` key.
  * `self.sentence_buckets[1].pop(0)` in `learn_sentence` is `List.tail`:
    removal of the front element.  (Python raises `IndexError` on an empty
    list; under the Next()/Learn() protocol the bucket is provably nonempty
    there, the front being the sentence just returned.)
  * `_update_buckets` iterates over `sentences_to_check`, a Python set, in
    unspecified order; the embedding folds over a deterministic enumeration
    (`enumFinset`) of that set.  All invariant lemmas below are proved for
    an arbitrary iteration list, so no property depends on the chosen order.
  * The external segmenter (`ChineseSegmenter.segment`, jieba) is an opaque
    parameter `seg : String → List String`, as the spec treats segmentation
    as an external collaborator.
  * `learn_sentence` on a sentence without a live record raises `KeyError`
    on its first statement (`self.sentence_data[sentence]`), before any
    mutation; this is the spec's `InvalidSelection` condition and is
    modelled by the result `none`, the caller's state being untouched.
-/

/-- The fixed punctuation exclusion set `PUNCTUATION` from `organizer.py`. -/
def PUNCTUATION : Finset String :=
  {"。", "，", "？", "！", "、", "：", "；", "“", "”", "‘", "’",
   "（", "）", "【", "】", "《", "》"}

/-- Rank of a word: `word_ranks.get(w, float('inf'))`. -/
def rankOf (ranks : String → Option ℕ) (w : String) : WithTop ℕ :=
  match ranks w with
  | some n => (n : WithTop ℕ)
  | none => ⊤

/-- `max((self.word_ranks.get(w, float('inf')) for w in unknown), default=float('inf'))`. -/
def maxRankOf (ranks : String → Option ℕ) (u : Finset String) : WithTop ℕ :=
  if u = ∅ then ⊤ else u.sup (rankOf ranks)

/-! A deterministic, kernel-computable enumeration of a `Finset String`,
used to model Python's (order-unspecified) iteration over the affected-
sentence set in `_update_buckets`.  It sorts by a structural lexicographic
order on the character data.  All loop lemmas below are proved for an
arbitrary iteration list, so no verified property depends on this order. -/

/-- Lexicographic comparison of character lists by code point. -/
def lexLe : List Char → List Char → Bool
  | [], _ => true
  | _ :: _, [] => false
  | a :: as, b :: bs =>
    if a.toNat < b.toNat then true
    else if b.toNat < a.toNat then false
    else lexLe as bs

/-- Lexicographic order on strings (structural, kernel-computable). -/
def strLe (a b : String) : Prop := lexLe a.data b.data = true

instance : DecidableRel strLe := fun _ _ => instDecidableEqBool _ _

lemma lexLe_total (a b : List Char) : lexLe a b = true ∨ lexLe b a = true := by
  induction a generalizing b with
  | nil => left; rfl
  | cons x xs ih =>
    cases b with
    | nil => right; rfl
    | cons y ys =>
      by_cases h1 : x.toNat < y.toNat
      · left; simp [lexLe, h1]
      · by_cases h2 : y.toNat < x.toNat
        · right; simp [lexLe, h1, h2]
        · rcases ih ys with h | h
          · left; simp [lexLe, h1, h2, h]
          · right; simp [lexLe, h1, h2, h]

lemma lexLe_trans {a b c : List Char} (h1 : lexLe a b = true) (h2 : lexLe b c = true) :
    lexLe a c = true := by
  induction a generalizing b c with
  | nil => rfl
  | cons x xs ih =>
    cases b with
    | nil => simp [lexLe] at h1
    | cons y ys =>
      cases c with
      | nil => simp [lexLe] at h2
      | cons z zs =>
        simp only [lexLe] at h1 h2 ⊢
        by_cases hxy : x.toNat < y.toNat
        · by_cases hyz : y.toNat < z.toNat
          · simp [Nat.lt_trans hxy hyz]
          · by_cases hzy : z.toNat < y.toNat
            · simp [hyz, hzy] at h2
            · have h3 : y.toNat = z.toNat :=
                Nat.le_antisymm (Nat.le_of_not_lt hzy) (Nat.le_of_not_lt hyz)
              simp [h3 ▸ hxy]
        · by_cases hyx : y.toNat < x.toNat
          · simp [hxy, hyx] at h1
          · have hxy' : x.toNat = y.toNat :=
              Nat.le_antisymm (Nat.le_of_not_lt hyx) (Nat.le_of_not_lt hxy)
            simp only [hxy, hyx, if_false] at h1
            by_cases hyz : y.toNat < z.toNat
            · simp [hxy' ▸ hyz]
            · by_cases hzy : z.toNat < y.toNat
              · simp [hyz, hzy] at h2
              · simp only [hyz, hzy, if_false] at h2
                have h3 := ih h1 h2
                simp [hxy' ▸ hyz, hxy' ▸ hzy, h3]

lemma lexLe_antisymm {a b : List Char} (h1 : lexLe a b = true) (h2 : lexLe b a = true) :
    a = b := by
  induction a generalizing b with
  | nil =>
    cases b with
    | nil => rfl
    | cons y ys => simp [lexLe] at h2
  | cons x xs ih =>
    cases b with
    | nil => simp [lexLe] at h1
    | cons y ys =>
      simp only [lexLe] at h1 h2
      by_cases hxy : x.toNat < y.toNat
      · simp [Nat.lt_asymm hxy, hxy] at h2
      · by_cases hyx : y.toNat < x.toNat
        · simp [hxy, hyx] at h1
        · have hx : x.toNat = y.toNat :=
            Nat.le_antisymm (Nat.le_of_not_lt hyx) (Nat.le_of_not_lt hxy)
          have hchar : x = y := Char.eq_of_val_eq (UInt32.ext hx)
          simp only [hxy, hyx, if_false] at h1 h2
          rw [hchar, ih h1 h2]

instance : IsTotal String strLe := ⟨fun a b => lexLe_total a.data b.data⟩

instance : IsTrans String strLe := ⟨fun _ _ _ => lexLe_trans⟩

instance : IsAntisymm String strLe :=
  ⟨fun a b h1 h2 => by
    cases a; cases b
    exact congrArg String.mk (lexLe_antisymm h1 h2)⟩

/-- Deterministic enumeration of a finite set of strings. -/
def enumFinset (F : Finset String) : List String :=
  Quot.liftOn F.1 (fun l => l.insertionSort strLe)
    (fun a b hab => List.eq_of_perm_of_sorted
      ((List.perm_insertionSort _ a).trans ((Quotient.exact (Quot.sound hab)).trans
        (List.perm_insertionSort _ b).symm))
      (List.sorted_insertionSort _ a)
      (List.sorted_insertionSort _ b))

lemma mem_enumFinset {s : String} {F : Finset String} : s ∈ enumFinset F ↔ s ∈ F := by
  rcases F with ⟨m, hm⟩
  induction m using Quot.ind with
  | _ l =>
    show s ∈ l.insertionSort strLe ↔ _
    rw [List.mem_insertionSort]
    exact Iff.rfl

/-- One entry of `self.sentence_data`: the dict
`{'words': ..., 'unknown': ..., 'max_rank': ...}`. -/
structure SentenceRec where
  words : List String
  unknown : Finset String
  max_rank : WithTop ℕ
deriving DecidableEq

/-- The mutable state of a `SentenceOrganizer` (timing counters omitted). -/
structure OrgState where
  known_words : Finset String
  bucket1 : List String
  buckets : ℕ → Finset String
  sentence_data : String → Option SentenceRec
  word_to_sentences : String → Option (Finset String)
  all_words : Finset String
  skipped_sentences : ℕ
  n2_sentences_used : ℕ
  n1_counter : Option ℕ

/-- `self.word_to_sentences[word].add(sentence)` (defaultdict read + add). -/
def w2sAdd (m : String → Option (Finset String)) (w sentence : String) :
    String → Option (Finset String) :=
  fun w' => if w' = w then some (insert sentence ((m w).getD ∅)) else m w'

/-- `for word in words: self.word_to_sentences[word].add(sentence)`. -/
def registerWords (sentence : String) (words : List String)
    (m : String → Option (Finset String)) : String → Option (Finset String) :=
  words.foldl (fun m w => w2sAdd m w sentence) m

/-- `SentenceOrganizer._process_sentence(sentence, words)`. -/
def processSentence (ranks : String → Option ℕ) (σ : OrgState)
    (sentence : String) (words : List String) : OrgState :=
  let unknown := words.toFinset \ σ.known_words
  if unknown = ∅ then
    { σ with skipped_sentences := σ.skipped_sentences + 1 }
  else
    let r : SentenceRec := ⟨words, unknown, maxRankOf ranks unknown⟩
    let σ' := { σ with
      sentence_data := fun t => if t = sentence then some r else σ.sentence_data t }
    let σ'' :=
      if unknown.card = 1 then
        { σ' with bucket1 := σ'.bucket1 ++ [sentence] }
      else
        { σ' with buckets := fun k =>
            if k = unknown.card then insert sentence (σ'.buckets k) else σ'.buckets k }
    { σ'' with word_to_sentences := registerWords sentence words σ''.word_to_sentences }

/-- The `__init__` loop: segment each input sentence, accumulate `all_words`,
and `_process_sentence` it.  `known_words` starts as `PUNCTUATION` plus the
optional `initial_words`. -/
def initState (ranks : String → Option ℕ) (seg : String → List String)
    (sentences : List String) (initial_words : Finset String) : OrgState :=
  let σ0 : OrgState :=
    { known_words := PUNCTUATION ∪ initial_words
      bucket1 := []
      buckets := fun _ => ∅
      sentence_data := fun _ => none
      word_to_sentences := fun _ => none
      all_words := ∅
      skipped_sentences := 0
      n2_sentences_used := 0
      n1_counter := none }
  sentences.foldl (fun σ s =>
    let words := seg s
    processSentence ranks { σ with all_words := σ.all_words ∪ words.toFinset } s words) σ0

/-- The body of the `for sentence in sentences_to_check` loop of
`_update_buckets`, for one affected sentence. -/
def stepAffected (nw : Finset String) (σ : OrgState) (s : String) : OrgState :=
  match σ.sentence_data s with
  | none => σ
  | some r =>
    let old := r.unknown.card
    let σ' :=
      if old = 1 then
        { σ with bucket1 := σ.bucket1.erase s }
      else
        { σ with buckets := fun k =>
            if k = old then (σ.buckets old).erase s else σ.buckets k }
    let unknown' := r.unknown \ nw
    if unknown' = ∅ then
      { σ' with
        sentence_data := fun t => if t = s then none else σ'.sentence_data t
        skipped_sentences := σ'.skipped_sentences + 1 }
    else
      let σ'' := { σ' with
        sentence_data := fun t =>
          if t = s then some { r with unknown := unknown' } else σ'.sentence_data t }
      if unknown'.card = 1 then
        { σ'' with bucket1 := σ''.bucket1 ++ [s] }
      else
        { σ'' with buckets := fun k =>
            if k = unknown'.card then insert s (σ''.buckets k) else σ''.buckets k }

/-- The affected-sentence loop of `_update_buckets`, over an explicit
iteration list. -/
def processAffected (nw : Finset String) (l : List String) (σ : OrgState) : OrgState :=
  l.foldl (stepAffected nw) σ

/-- `SentenceOrganizer._update_buckets(new_words)`: collect the reverse-index
entries of the new words (deleting them), then update every affected
sentence.  Python iterates the affected set in unspecified order; the
embedding picks the sorted enumeration (every lemma below about the loop is
proved for an arbitrary iteration list, so nothing depends on this choice). -/
def updateBuckets (σ : OrgState) (nw : Finset String) : OrgState :=
  let toCheck : Finset String := nw.sup fun w => (σ.word_to_sentences w).getD ∅
  let σ' := { σ with
    word_to_sentences := fun w => if w ∈ nw then none else σ.word_to_sentences w }
  processAffected nw (enumFinset toCheck) σ'

/-- The `while self._n1_counter > 0 and bucket:` loop of `get_next_sentence`:
decrement the counter, return the front if it is live, otherwise pop it.
Returns (result, final counter, final bucket). -/
def scanBucket (data : String → Option SentenceRec) :
    ℕ → List String → Option String × ℕ × List String
  | 0, b => (none, 0, b)
  | c + 1, [] => (none, c + 1, [])
  | c + 1, s :: rest =>
    if (data s).isSome then (some s, c, s :: rest) else scanBucket data c rest

/-- Sort key of `bucket.sort(key=lambda s: self.sentence_data[s]['max_rank'])`
(total; the source only sorts lists of live sentences). -/
def sortKey (data : String → Option SentenceRec) (s : String) : WithTop ℕ :=
  match data s with
  | some r => r.max_rank
  | none => ⊤

/-- `not hasattr(self, '_n1_counter') or self._n1_counter <= 0`. -/
def needsResort : Option ℕ → Bool
  | none => true
  | some c => c = 0

/-- `new_bucket = [s for s in bucket if s in self.sentence_data]`: the
frontier cleaned of entries without a live record. -/
def cleanedOf (σ : OrgState) : List String :=
  σ.bucket1.filter fun s => (σ.sentence_data s).isSome

/-- The cleaned frontier after the in-place
`bucket.sort(key=lambda s: self.sentence_data[s]['max_rank'])`. -/
def sortedOf (σ : OrgState) : List String :=
  List.insertionSort
    (fun a b => sortKey σ.sentence_data a ≤ sortKey σ.sentence_data b) (cleanedOf σ)

/-- The clean-and-resort branch of `get_next_sentence`, followed by the while
loop.  (When the cleaned bucket is nonempty its first element is live, so the
while loop returns it at once; the source's recursive retry is unreachable
from here, see `resortPick_eq`.) -/
def resortPick (σ : OrgState) : Option String × OrgState :=
  if (cleanedOf σ).isEmpty then (none, { σ with bucket1 := [] })
  else
    match scanBucket σ.sentence_data (((sortedOf σ).length + 1) / 2) (sortedOf σ) with
    | (res, c', b') => (res, { σ with bucket1 := b', n1_counter := some c' })

/-- The no-resort path of `get_next_sentence`: run the while loop on the
current (possibly stale) frontier with the remaining batch counter; if it
finds a live front entry return it, otherwise fall through to the source's
tail recursion (`return self.get_next_sentence()`), which at that point sees
either an empty frontier (terminal signal) or a zero counter (one resort
pass). -/
def scanPick (σ : OrgState) : Option String × OrgState :=
  match scanBucket σ.sentence_data (σ.n1_counter.getD 0) σ.bucket1 with
  | (some s, c', b') => (some s, { σ with bucket1 := b', n1_counter := some c' })
  | (none, c', b') =>
    if b'.isEmpty then (none, { σ with bucket1 := b', n1_counter := some c' })
    else resortPick { σ with bucket1 := b', n1_counter := some c' }

/-- `SentenceOrganizer.get_next_sentence()`. -/
def getNext (σ : OrgState) : Option String × OrgState :=
  if σ.bucket1.isEmpty then (none, σ)
  else if needsResort σ.n1_counter then resortPick σ
  else scanPick σ

/-- `SentenceOrganizer.learn_sentence(sentence)`.  Returns the updated state
with `(new_words, segmented_words)`, or `none` for the `KeyError` /
`InvalidSelection` failure on a sentence without a live record (raised before
any mutation). -/
def learnSentence (σ : OrgState) (sentence : String) :
    Option (OrgState × Finset String × List String) :=
  match σ.sentence_data sentence with
  | none => none
  | some info =>
    let new_words := info.unknown
    let σa := if new_words.card = 2 then
        { σ with n2_sentences_used := σ.n2_sentences_used + 1 } else σ
    let σb := { σa with known_words := σa.known_words ∪ new_words }
    let σc :=
      if new_words.card = 1 then
        { σb with bucket1 := σb.bucket1.tail }
      else
        { σb with buckets := fun k =>
            if k = new_words.card then (σb.buckets k).erase sentence else σb.buckets k }
    let σd := { σc with
      sentence_data := fun t => if t = sentence then none else σc.sentence_data t }
    some (updateBuckets σd new_words, new_words, info.words)

/-- States reachable through the public protocol used by every caller in the
repository (`main.py`, `selection.py`, `organizer.main`): initialization,
then repeatedly `get_next_sentence` followed, whenever it returns a sentence,
by `learn_sentence` on that very sentence. -/
inductive Reach (ranks : String → Option ℕ) (seg : String → List String)
    (corpus : List String) (initW : Finset String) : OrgState → Prop
  | init : Reach ranks seg corpus initW (initState ranks seg corpus initW)
  | next (σ : OrgState) : Reach ranks seg corpus initW σ →
      Reach ranks seg corpus initW (getNext σ).2
  | learn (σ : OrgState) (s : String) (σ' : OrgState) (nw : Finset String)
      (ws : List String) :
      Reach ranks seg corpus initW σ →
      (getNext σ).1 = some s →
      learnSentence (getNext σ).2 s = some (σ', nw, ws) →
      Reach ranks seg corpus initW σ'

/-! ### Concrete instances used to witness the claims.
Words are opaque tokens; short Latin strings are used for readability. -/

/-- Example frequency table: A ↦ 1, B ↦ 5, C ↦ 3, D ↦ 4, all others absent. -/
def exRanks : String → Option ℕ := fun w =>
  if w = "A" then some 1 else if w = "B" then some 5 else
  if w = "C" then some 3 else if w = "D" then some 4 else none

/-- Example external segmenter. -/
def exSeg : String → List String := fun s =>
  if s = "AB" then ["A", "B"] else if s = "BC" then ["B", "C"] else
  if s = "CD" then ["C", "D"] else []

/-- Initial organizer over the corpus ["AB", "BC"] with "A" pre-known:
"AB" enters the frontier with unknown {"B"}, "BC" holds at count 2. -/
def exC3start : OrgState := initState exRanks exSeg ["AB", "BC"] {"A"}

/-- State after `get_next_sentence` (which returns "AB"). -/
def exC3mid : OrgState := (getNext exC3start).2

/-- Result of committing "AB". -/
def exC3learn : Option (OrgState × Finset String × List String) :=
  learnSentence exC3mid "AB"

/-- The organizer state after learning "AB" (projection of `exC3learn`). -/
def exC3next : OrgState := (exC3learn.getD (exC3mid, ∅, [])).1

/-- Initial organizer whose only sentence has two unknown words, so the
frontier is empty. -/
def exEmptyFrontier : OrgState := initState exRanks exSeg ["BC"] {"A"}

/-- Initial organizer with two disjoint frontier sentences, used to exhibit
the positional front-pop of `learn_sentence`. -/
def exTwoFrontier : OrgState := initState exRanks exSeg ["AB", "CD"] {"A", "C"}

/-- Segmenter producing a 25-token sentence for "L". -/
def exSegLong : String → List String := fun s =>
  if s = "L" then
    ["a", "b", "c", "d", "e", "f", "g", "h", "i", "j", "k", "l",
     "m", "n", "o", "p", "q", "r", "s", "t", "u", "v", "w", "x", "z"]
  else []

/-- Initial known words covering all but the last of the 25 tokens. -/
def exLongKnown : Finset String :=
  {"a", "b", "c", "d", "e", "f", "g", "h", "i", "j", "k", "l",
   "m", "n", "o", "p", "q", "r", "s", "t", "u", "v", "w", "x"}

/-- Empty frequency table (every word missing, so every rank is ⊤). -/
def exNoRanks : String → Option ℕ := fun _ => none

/-- Organizer over the single 25-token sentence. -/
def exLong : OrgState := initState exNoRanks exSegLong ["L"] exLongKnown

/-- Segmenter whose tokens do not re-join to the sentence text:
join(["Q"]) = "Q" ≠ "XY". -/
def exSegBad : String → List String := fun s => if s = "XY" then ["Q"] else []

/-- Organizer over the mis-segmented sentence. -/
def exBadSeg : OrgState := initState exNoRanks exSegBad ["XY"] ∅


/-! ### Field characterizations of `stepAffected` -/

lemma stepAffected_dead {nw : Finset String} {σ : OrgState} {s : String}
    (h : σ.sentence_data s = none) : stepAffected nw σ s = σ := by
  unfold stepAffected
  rw [h]

lemma stepAffected_known {nw : Finset String} {σ : OrgState} {s : String} :
    (stepAffected nw σ s).known_words = σ.known_words := by
  cases h : σ.sentence_data s with
  | none => rw [stepAffected_dead h]
  | some r =>
    by_cases h1 : r.unknown.card = 1 <;> by_cases h2 : r.unknown \ nw = ∅ <;>
      by_cases h3 : (r.unknown \ nw).card = 1 <;>
      simp [stepAffected, h, h1, h2, h3]

lemma stepAffected_w2s {nw : Finset String} {σ : OrgState} {s : String} :
    (stepAffected nw σ s).word_to_sentences = σ.word_to_sentences := by
  cases h : σ.sentence_data s with
  | none => rw [stepAffected_dead h]
  | some r =>
    by_cases h1 : r.unknown.card = 1 <;> by_cases h2 : r.unknown \ nw = ∅ <;>
      by_cases h3 : (r.unknown \ nw).card = 1 <;>
      simp [stepAffected, h, h1, h2, h3]

lemma stepAffected_data_self {nw : Finset String} {σ : OrgState} {s : String}
    {r : SentenceRec} (h : σ.sentence_data s = some r) :
    (stepAffected nw σ s).sentence_data s =
      if r.unknown \ nw = ∅ then none else some { r with unknown := r.unknown \ nw } := by
  by_cases h1 : r.unknown.card = 1 <;> by_cases h2 : r.unknown \ nw = ∅ <;>
    by_cases h3 : (r.unknown \ nw).card = 1 <;>
    simp [stepAffected, h, h1, h2, h3]

lemma stepAffected_data_ne {nw : Finset String} {σ : OrgState} {s t : String}
    (hne : t ≠ s) : (stepAffected nw σ s).sentence_data t = σ.sentence_data t := by
  cases h : σ.sentence_data s with
  | none => rw [stepAffected_dead h]
  | some r =>
    by_cases h1 : r.unknown.card = 1 <;> by_cases h2 : r.unknown \ nw = ∅ <;>
      by_cases h3 : (r.unknown \ nw).card = 1 <;>
      simp [stepAffected, h, h1, h2, h3, hne]

lemma stepAffected_bucket1 {nw : Finset String} {σ : OrgState} {s : String}
    {r : SentenceRec} (h : σ.sentence_data s = some r) :
    (stepAffected nw σ s).bucket1 =
      (if r.unknown \ nw ≠ ∅ ∧ (r.unknown \ nw).card = 1 then
        (if r.unknown.card = 1 then σ.bucket1.erase s else σ.bucket1) ++ [s]
      else
        (if r.unknown.card = 1 then σ.bucket1.erase s else σ.bucket1)) := by
  by_cases h1 : r.unknown.card = 1 <;> by_cases h2 : r.unknown \ nw = ∅ <;>
    by_cases h3 : (r.unknown \ nw).card = 1 <;>
    simp [stepAffected, h, h1, h2, h3]

lemma stepAffected_buckets {nw : Finset String} {σ : OrgState} {s : String}
    {r : SentenceRec} (h : σ.sentence_data s = some r) (k : ℕ) :
    (stepAffected nw σ s).buckets k =
      (if r.unknown \ nw ≠ ∅ ∧ (r.unknown \ nw).card ≠ 1 ∧ k = (r.unknown \ nw).card then
        insert s (if r.unknown.card = 1 then σ.buckets k
          else (if k = r.unknown.card then (σ.buckets k).erase s else σ.buckets k))
      else
        (if r.unknown.card = 1 then σ.buckets k
          else (if k = r.unknown.card then (σ.buckets k).erase s else σ.buckets k))) := by
  by_cases h1 : r.unknown.card = 1 <;> by_cases h2 : r.unknown \ nw = ∅ <;>
    by_cases h3 : (r.unknown \ nw).card = 1 <;>
    by_cases hk : k = (r.unknown \ nw).card <;>
    by_cases hk' : k = r.unknown.card <;>
    simp [stepAffected, h, h1, h2, h3, hk, hk'] <;>
    (try (split <;> simp_all))

/-! ### The bucket invariant (claim C2's property, plus the auxiliary facts
needed to maintain it) -/

/-- Bucket-index consistency for one state: every live record is filed in the
bucket keyed by its unknown-word count, live members of a bucket have the
matching count, and the set-valued map is empty at keys 0 and 1 (those counts
live in the `bucket1` list or not at all). -/
structure BucketInv (σ : OrgState) : Prop where
  nonempty : ∀ s r, σ.sentence_data s = some r → r.unknown ≠ ∅
  mem1 : ∀ s r, σ.sentence_data s = some r → r.unknown.card = 1 → s ∈ σ.bucket1
  memk : ∀ s r, σ.sentence_data s = some r → r.unknown.card ≠ 1 →
    s ∈ σ.buckets r.unknown.card
  card1 : ∀ s, s ∈ σ.bucket1 → ∀ r, σ.sentence_data s = some r → r.unknown.card = 1
  cardk : ∀ k s, s ∈ σ.buckets k → ∀ r, σ.sentence_data s = some r → r.unknown.card = k
  low : ∀ k, k ≤ 1 → σ.buckets k = ∅

lemma card_sdiff_one {u nw : Finset String} (hcard : u.card = 1) (hne : u \ nw ≠ ∅) :
    (u \ nw).card = 1 := by
  have hle : (u \ nw).card ≤ 1 := hcard ▸ Finset.card_le_card (Finset.sdiff_subset)
  have hpos : 0 < (u \ nw).card :=
    Finset.card_pos.mpr (Finset.nonempty_iff_ne_empty.mpr hne)
  omega

lemma stepAffected_bucketInv {nw : Finset String} {σ : OrgState} {s : String}
    (hB : BucketInv σ) : BucketInv (stepAffected nw σ s) := by
  cases hds : σ.sentence_data s with
  | none => rw [stepAffected_dead hds]; exact hB
  | some r =>
    have hold_pos : 0 < r.unknown.card :=
      Finset.card_pos.mpr (Finset.nonempty_iff_ne_empty.mpr (hB.nonempty s r hds))
    constructor
    · -- nonempty
      intro t r' ht
      by_cases hts : t = s
      · subst hts
        rw [stepAffected_data_self hds] at ht
        split at ht
        · exact absurd ht (by simp)
        · rename_i hne
          cases ht
          simpa using hne
      · rw [stepAffected_data_ne hts] at ht
        exact hB.nonempty t r' ht
    · -- mem1
      intro t r' ht hc
      rw [stepAffected_bucket1 hds]
      by_cases hts : t = s
      · subst hts
        rw [stepAffected_data_self hds] at ht
        split at ht
        · exact absurd ht (by simp)
        · rename_i hne
          cases ht
          simp only [ne_eq, hne, not_false_iff, true_and] at hc ⊢
          simp [hc]
      · rw [stepAffected_data_ne hts] at ht
        have hmem : t ∈ σ.bucket1 := hB.mem1 t r' ht hc
        have hbase : t ∈ (if r.unknown.card = 1 then σ.bucket1.erase s else σ.bucket1) := by
          split
          · exact (List.mem_erase_of_ne hts).mpr hmem
          · exact hmem
        split
        · exact List.mem_append_left _ hbase
        · exact hbase
    · -- memk
      intro t r' ht hc
      by_cases hts : t = s
      · subst hts
        rw [stepAffected_data_self hds] at ht
        split at ht
        · exact absurd ht (by simp)
        · rename_i hne
          cases ht
          rw [stepAffected_buckets hds]
          simp only [ne_eq, hne, not_false_iff, true_and] at hc ⊢
          simp [hc]
      · rw [stepAffected_data_ne hts] at ht
        have hmem : t ∈ σ.buckets r'.unknown.card := hB.memk t r' ht hc
        rw [stepAffected_buckets hds]
        have hbags : t ∈ (if r.unknown.card = 1 then σ.buckets r'.unknown.card
            else (if r'.unknown.card = r.unknown.card
              then (σ.buckets r'.unknown.card).erase s else σ.buckets r'.unknown.card)) := by
          split
          · exact hmem
          · split
            · exact Finset.mem_erase.mpr ⟨hts, hmem⟩
            · exact hmem
        split
        · exact Finset.mem_insert_of_mem hbags
        · exact hbags
    · -- card1
      intro t hmem r' ht
      by_cases hts : t = s
      · subst hts
        rw [stepAffected_data_self hds] at ht
        split at ht
        · exact absurd ht (by simp)
        · rename_i hne
          cases ht
          simp only [ne_eq]
          by_cases hc' : (r.unknown \ nw).card = 1
          · exact hc'
          · -- s sits in the result bucket1 without the append; derive card = 1 anyway
            rw [stepAffected_bucket1 hds] at hmem
            simp only [ne_eq, hne, not_false_iff, true_and, hc', if_false] at hmem
            by_cases hold : r.unknown.card = 1
            · exact card_sdiff_one hold hne
            · rw [if_neg hold] at hmem
              exact absurd (hB.card1 t hmem r hds) hold
      · rw [stepAffected_data_ne hts] at ht
        rw [stepAffected_bucket1 hds] at hmem
        have hmem' : t ∈ σ.bucket1 := by
          have hbase : ∀ h : t ∈ (if r.unknown.card = 1 then σ.bucket1.erase s
              else σ.bucket1), t ∈ σ.bucket1 := by
            intro h
            split at h
            · exact List.mem_of_mem_erase h
            · exact h
          split at hmem
          · rcases List.mem_append.mp hmem with h | h
            · exact hbase h
            · exact absurd (List.mem_singleton.mp h) hts
          · exact hbase hmem
        exact hB.card1 t hmem' r' ht
    · -- cardk
      intro k t hmem r' ht
      by_cases hts : t = s
      · subst hts
        rw [stepAffected_data_self hds] at ht
        split at ht
        · exact absurd ht (by simp)
        · rename_i hne
          cases ht
          simp only
          rw [stepAffected_buckets hds] at hmem
          by_cases hk : k = (r.unknown \ nw).card
          · exact hk.symm
          · -- all other buckets provably do not contain the processed sentence
            exfalso
            have hmem' : t ∈ (if r.unknown.card = 1 then σ.buckets k
                else (if k = r.unknown.card then (σ.buckets k).erase t else σ.buckets k)) := by
              split at hmem
              · rename_i hcond
                exact absurd hcond.2.2 hk
              · exact hmem
            by_cases hold : r.unknown.card = 1
            · rw [if_pos hold] at hmem'
              have hk1 : r.unknown.card = k := hB.cardk k t hmem' r hds
              rw [hB.low k (by omega)] at hmem'
              exact absurd hmem' (Finset.not_mem_empty t)
            · rw [if_neg hold] at hmem'
              by_cases hko : k = r.unknown.card
              · rw [if_pos hko] at hmem'
                exact absurd hmem' (Finset.not_mem_erase t _)
              · rw [if_neg hko] at hmem'
                exact hko (hB.cardk k t hmem' r hds).symm
      · rw [stepAffected_data_ne hts] at ht
        rw [stepAffected_buckets hds] at hmem
        have hmem' : t ∈ σ.buckets k := by
          have hbags : ∀ h : t ∈ (if r.unknown.card = 1 then σ.buckets k
              else (if k = r.unknown.card then (σ.buckets k).erase s else σ.buckets k)),
              t ∈ σ.buckets k := by
            intro h
            split at h
            · exact h
            · split at h
              · exact Finset.mem_of_mem_erase h
              · exact h
          split at hmem
          · rcases Finset.mem_insert.mp hmem with h | h
            · exact absurd h hts
            · exact hbags h
          · exact hbags hmem
        exact hB.cardk k t hmem' r' ht
    · -- low
      intro k hk
      rw [stepAffected_buckets hds]
      have hcond : ¬(r.unknown \ nw ≠ ∅ ∧ (r.unknown \ nw).card ≠ 1 ∧
          k = (r.unknown \ nw).card) := by
        rintro ⟨hne, hc1, hkc⟩
        have hpos : 0 < (r.unknown \ nw).card :=
          Finset.card_pos.mpr (Finset.nonempty_iff_ne_empty.mpr hne)
        omega
      rw [if_neg hcond]
      split
      · exact hB.low k hk
      · split
        · rename_i hold hko
          exfalso
          omega
        · exact hB.low k hk

/-! ### Lemmas about the affected-sentence loop (`processAffected`) -/

lemma processAffected_cons {nw : Finset String} {s : String} {l : List String}
    {σ : OrgState} :
    processAffected nw (s :: l) σ = processAffected nw l (stepAffected nw σ s) := rfl

lemma processAffected_bucketInv {nw : Finset String} {l : List String} {σ : OrgState}
    (hB : BucketInv σ) : BucketInv (processAffected nw l σ) := by
  induction l generalizing σ with
  | nil => exact hB
  | cons s rest ih => exact ih (stepAffected_bucketInv hB)

lemma processAffected_known {nw : Finset String} {l : List String} {σ : OrgState} :
    (processAffected nw l σ).known_words = σ.known_words := by
  induction l generalizing σ with
  | nil => rfl
  | cons s rest ih => rw [processAffected_cons, ih, stepAffected_known]

lemma processAffected_w2s {nw : Finset String} {l : List String} {σ : OrgState} :
    (processAffected nw l σ).word_to_sentences = σ.word_to_sentences := by
  induction l generalizing σ with
  | nil => rfl
  | cons s rest ih => rw [processAffected_cons, ih, stepAffected_w2s]

lemma processAffected_data_none {nw : Finset String} {l : List String} {σ : OrgState}
    {t : String} (h : σ.sentence_data t = none) :
    (processAffected nw l σ).sentence_data t = none := by
  induction l generalizing σ with
  | nil => exact h
  | cons s rest ih =>
    rw [processAffected_cons]
    apply ih
    by_cases hts : t = s
    · subst hts
      rw [stepAffected_dead h]
      exact h
    · rw [stepAffected_data_ne hts]
      exact h

lemma processAffected_data_notmem {nw : Finset String} {l : List String} {σ : OrgState}
    {t : String} (h : t ∉ l) :
    (processAffected nw l σ).sentence_data t = σ.sentence_data t := by
  induction l generalizing σ with
  | nil => rfl
  | cons s rest ih =>
    rw [processAffected_cons, ih (fun hm => h (List.mem_cons_of_mem s hm))]
    exact stepAffected_data_ne (fun hts => h (hts ▸ List.mem_cons_self s rest))

lemma processAffected_b1_dead_mem {nw : Finset String} {l : List String} {σ : OrgState}
    {t : String} (hd : σ.sentence_data t = none) (hm : t ∈ σ.bucket1) :
    t ∈ (processAffected nw l σ).bucket1 := by
  induction l generalizing σ with
  | nil => exact hm
  | cons s rest ih =>
    rw [processAffected_cons]
    by_cases hts : t = s
    · subst hts
      rw [stepAffected_dead hd]
      exact ih hd hm
    · cases hds : σ.sentence_data s with
      | none =>
        rw [stepAffected_dead hds]
        exact ih hd hm
      | some r =>
        have hd' : (stepAffected nw σ s).sentence_data t = none := by
          rw [stepAffected_data_ne hts]; exact hd
        apply ih hd'
        rw [stepAffected_bucket1 hds]
        have hbase : t ∈ (if r.unknown.card = 1 then σ.bucket1.erase s else σ.bucket1) := by
          split
          · exact (List.mem_erase_of_ne hts).mpr hm
          · exact hm
        split
        · exact List.mem_append_left _ hbase
        · exact hbase

lemma processAffected_b1_notmem {nw : Finset String} {l : List String} {σ : OrgState}
    {t : String} (hm : t ∉ σ.bucket1) (hl : t ∉ l) :
    t ∉ (processAffected nw l σ).bucket1 := by
  induction l generalizing σ with
  | nil => exact hm
  | cons s rest ih =>
    rw [processAffected_cons]
    have hts : t ≠ s := fun h => hl (h ▸ List.mem_cons_self s rest)
    apply ih _ (fun h => hl (List.mem_cons_of_mem s h))
    cases hds : σ.sentence_data s with
    | none => rw [stepAffected_dead hds]; exact hm
    | some r =>
      rw [stepAffected_bucket1 hds]
      have hbase : t ∉ (if r.unknown.card = 1 then σ.bucket1.erase s else σ.bucket1) := by
        split
        · exact fun h => hm (List.mem_of_mem_erase h)
        · exact hm
      split
      · intro h
        rcases List.mem_append.mp h with h | h
        · exact hbase h
        · exact hts (List.mem_singleton.mp h)
      · exact hbase

/-! ### Data currency and reverse-index completeness -/

/-- Every live record's `unknown` set is exactly its tokens minus the current
known-vocabulary set. -/
def DataCur (σ : OrgState) : Prop :=
  ∀ s r, σ.sentence_data s = some r →
    r.unknown = r.words.toFinset \ σ.known_words

/-- Reverse-index completeness: every live record is registered under each of
its not-yet-known tokens. -/
def W2SInv (σ : OrgState) : Prop :=
  ∀ s r, σ.sentence_data s = some r → ∀ w ∈ r.words, w ∉ σ.known_words →
    ∃ S, σ.word_to_sentences w = some S ∧ s ∈ S

/-- The combined organizer invariant. -/
def OrgInv (σ : OrgState) : Prop := BucketInv σ ∧ DataCur σ ∧ W2SInv σ

/-- Record provenance through one loop step: a live record afterwards comes
from a live record before, with the same tokens and priority, and `unknown`
either untouched or shrunk by the learned words. -/
lemma stepAffected_provenance {nw : Finset String} {σ : OrgState} {s t : String}
    {r' : SentenceRec} (h : (stepAffected nw σ s).sentence_data t = some r') :
    ∃ r0, σ.sentence_data t = some r0 ∧ r'.words = r0.words ∧
      r'.max_rank = r0.max_rank ∧ (r' = r0 ∨ r'.unknown = r0.unknown \ nw) := by
  by_cases hts : t = s
  · subst hts
    cases hds : σ.sentence_data t with
    | none => rw [stepAffected_dead hds] at h; rw [hds] at h; cases h
    | some r0 =>
      rw [stepAffected_data_self hds] at h
      split at h
      · cases h
      · cases h
        exact ⟨r0, rfl, rfl, rfl, Or.inr rfl⟩
  · rw [stepAffected_data_ne hts] at h
    exact ⟨r', h, rfl, rfl, Or.inl rfl⟩

lemma processAffected_provenance {nw : Finset String} {l : List String} {σ : OrgState}
    {t : String} {r' : SentenceRec}
    (h : (processAffected nw l σ).sentence_data t = some r') :
    ∃ r0, σ.sentence_data t = some r0 ∧ r'.words = r0.words ∧
      r'.max_rank = r0.max_rank ∧ (r' = r0 ∨ r'.unknown = r0.unknown \ nw) := by
  induction l generalizing σ with
  | nil => exact ⟨r', h, rfl, rfl, Or.inl rfl⟩
  | cons s rest ih =>
    rw [processAffected_cons] at h
    obtain ⟨r1, h1, hw1, hm1, hu1⟩ := ih h
    obtain ⟨r0, h0, hw0, hm0, hu0⟩ := stepAffected_provenance h1
    refine ⟨r0, h0, hw1.trans hw0, hm1.trans hm0, ?_⟩
    rcases hu1 with rfl | hu1
    · exact hu0
    · rcases hu0 with rfl | hu0
      · exact Or.inr hu1
      · rw [hu0, Finset.sdiff_idem] at hu1
        exact Or.inr hu1

lemma processAffected_w2sInv {nw : Finset String} {l : List String} {σ : OrgState}
    (hw : W2SInv σ) : W2SInv (processAffected nw l σ) := by
  intro t r' ht w hww hwk
  obtain ⟨r0, h0, hwords, -, -⟩ := processAffected_provenance ht
  rw [processAffected_known] at hwk
  rw [processAffected_w2s]
  exact hw t r0 h0 w (hwords ▸ hww) hwk

/-- The intermediate property of the affected-sentence loop: for every live
record, subtracting the learned words makes its `unknown` current, and any
record actually containing a learned word among its unknowns is still
pending in the iteration list. -/
def PendingInv (nw : Finset String) (l : List String) (σ : OrgState) : Prop :=
  ∀ s r, σ.sentence_data s = some r →
    r.unknown \ nw = r.words.toFinset \ σ.known_words ∧
    ((r.unknown ∩ nw).Nonempty → s ∈ l)

lemma pendingInv_step {nw : Finset String} {s : String} {rest : List String}
    {σ : OrgState} (hP : PendingInv nw (s :: rest) σ) :
    PendingInv nw rest (stepAffected nw σ s) := by
  intro t r' ht
  obtain ⟨r0, h0, hwords, -, hu⟩ := stepAffected_provenance ht
  rw [stepAffected_known]
  by_cases hts : t = s
  · subst hts
    rw [stepAffected_data_self h0] at ht
    split at ht
    · cases ht
    · cases ht
      constructor
      · rw [Finset.sdiff_idem]
        exact (hP t r0 h0).1
      · intro hne
        exfalso
        rw [Finset.sdiff_inter_self] at hne
        exact Finset.not_nonempty_empty hne
  · rw [stepAffected_data_ne hts] at ht
    rw [ht] at h0
    cases h0
    refine ⟨(hP t r' ht).1, fun hne => ?_⟩
    rcases List.mem_cons.mp ((hP t r' ht).2 hne) with h | h
    · exact absurd h hts
    · exact h

lemma pendingInv_fold {nw : Finset String} {l : List String} {σ : OrgState}
    (hP : PendingInv nw l σ) : DataCur (processAffected nw l σ) := by
  induction l generalizing σ with
  | nil =>
    intro t r ht
    obtain ⟨h1, h2⟩ := hP t r ht
    have hempty : r.unknown ∩ nw = ∅ := by
      by_contra hne
      exact absurd (h2 (Finset.nonempty_iff_ne_empty.mpr hne)) (List.not_mem_nil t)
    have : r.unknown \ nw = r.unknown := by
      rw [Finset.sdiff_eq_self_iff_disjoint, Finset.disjoint_iff_inter_eq_empty]
      exact hempty
    rw [← this]
    exact h1
  | cons s rest ih =>
    rw [processAffected_cons]
    exact ih (pendingInv_step hP)

/-! ### Lemmas about `updateBuckets` -/

lemma updateBuckets_known {σ : OrgState} {nw : Finset String} :
    (updateBuckets σ nw).known_words = σ.known_words := by
  unfold updateBuckets
  rw [processAffected_known]

lemma updateBuckets_w2s {σ : OrgState} {nw : Finset String} (w : String) :
    (updateBuckets σ nw).word_to_sentences w =
      if w ∈ nw then none else σ.word_to_sentences w := by
  unfold updateBuckets
  rw [processAffected_w2s]

lemma updateBuckets_bucketInv {σ : OrgState} {nw : Finset String}
    (hB : BucketInv σ) : BucketInv (updateBuckets σ nw) := by
  unfold updateBuckets
  apply processAffected_bucketInv
  exact ⟨hB.nonempty, hB.mem1, hB.memk, hB.card1, hB.cardk, hB.low⟩

lemma updateBuckets_dataCur {σ : OrgState} {nw : Finset String}
    (hcur : ∀ s r, σ.sentence_data s = some r →
      r.unknown \ nw = r.words.toFinset \ σ.known_words)
    (hcov : ∀ s r, σ.sentence_data s = some r → (r.unknown ∩ nw).Nonempty →
      ∃ w ∈ nw, s ∈ (σ.word_to_sentences w).getD ∅) :
    DataCur (updateBuckets σ nw) := by
  unfold updateBuckets
  apply pendingInv_fold
  intro s r hs
  refine ⟨hcur s r hs, fun hne => ?_⟩
  obtain ⟨w, hw, hmem⟩ := hcov s r hs hne
  rw [mem_enumFinset]
  exact Finset.mem_sup.mpr ⟨w, hw, hmem⟩

lemma updateBuckets_w2sInv {σ : OrgState} {nw : Finset String}
    (hsub : nw ⊆ σ.known_words) (hw : W2SInv σ) : W2SInv (updateBuckets σ nw) := by
  unfold updateBuckets
  apply processAffected_w2sInv
  intro t r ht w hww hwk
  obtain ⟨S, hS, hmem⟩ := hw t r ht w hww hwk
  refine ⟨S, ?_, hmem⟩
  show (if w ∈ nw then none else σ.word_to_sentences w) = some S
  rw [if_neg (fun hwnw => hwk (hsub hwnw)), hS]

lemma updateBuckets_data_none {σ : OrgState} {nw : Finset String} {t : String}
    (h : σ.sentence_data t = none) : (updateBuckets σ nw).sentence_data t = none := by
  unfold updateBuckets
  exact processAffected_data_none h

/-! ### Lemmas about `learnSentence` -/

lemma learnSentence_of_dead {σ : OrgState} {s : String}
    (h : σ.sentence_data s = none) : learnSentence σ s = none := by
  unfold learnSentence
  rw [h]

/-- The state computed by `learn_sentence` for a frontier (count-1) sentence:
add the unknown word to the known set, pop the front of the count-1 bucket,
delete the record, then propagate with `_update_buckets`. -/
lemma learn_shape {σ : OrgState} {s : String} {σ' : OrgState} {nw : Finset String}
    {ws : List String} {r : SentenceRec} (hds : σ.sentence_data s = some r)
    (hcard : r.unknown.card = 1)
    (h : learnSentence σ s = some (σ', nw, ws)) :
    σ' = updateBuckets
      { σ with known_words := σ.known_words ∪ r.unknown,
               bucket1 := σ.bucket1.tail,
               sentence_data := fun t => if t = s then none else σ.sentence_data t }
      r.unknown ∧ nw = r.unknown ∧ ws = r.words := by
  simp only [learnSentence, hds, hcard] at h
  norm_num at h
  obtain ⟨h1, h2, h3⟩ := h
  exact ⟨h1.symm, h2.symm, h3.symm⟩

/-- `learn_sentence`, called under the Next()/Learn() protocol (the learned
sentence is at the front of the count-1 bucket), preserves the organizer
invariant. -/
lemma learn_preserves_inv {σ : OrgState} {s : String} {σ' : OrgState}
    {nw : Finset String} {ws : List String}
    (hI : OrgInv σ) (hhead : σ.bucket1.head? = some s)
    (h : learnSentence σ s = some (σ', nw, ws)) : OrgInv σ' := by
  obtain ⟨hB, hC, hW⟩ := hI
  cases hds : σ.sentence_data s with
  | none => rw [learnSentence_of_dead hds] at h; cases h
  | some r =>
    obtain ⟨rest, hb⟩ : ∃ rest, σ.bucket1 = s :: rest := by
      cases hbk : σ.bucket1 with
      | nil => rw [hbk] at hhead; cases hhead
      | cons a l =>
        rw [hbk, List.head?_cons] at hhead
        cases hhead
        exact ⟨l, rfl⟩
    have hmem : s ∈ σ.bucket1 := by rw [hb]; exact List.mem_cons_self s rest
    have hcard : r.unknown.card = 1 := hB.card1 s hmem r hds
    obtain ⟨hσ', -, -⟩ := learn_shape hds hcard h
    subst hσ'
    have hdata : ∀ t r', (fun t => if t = s then none else σ.sentence_data t) t = some r' →
        t ≠ s ∧ σ.sentence_data t = some r' := by
      intro t r' ht
      by_cases hts : t = s
      · simp [hts] at ht
      · simp only [hts, if_false] at ht
        exact ⟨hts, ht⟩
    refine ⟨updateBuckets_bucketInv ?_, updateBuckets_dataCur ?_ ?_,
      updateBuckets_w2sInv ?_ ?_⟩
    · -- BucketInv of the pre-propagation state
      constructor
      · intro t r' ht
        obtain ⟨hts, ht'⟩ := hdata t r' ht
        exact hB.nonempty t r' ht'
      · intro t r' ht hc
        obtain ⟨hts, ht'⟩ := hdata t r' ht
        show t ∈ σ.bucket1.tail
        rw [hb]
        have := hB.mem1 t r' ht' hc
        rw [hb, List.mem_cons] at this
        rcases this with h | h
        · exact absurd h hts
        · exact h
      · intro t r' ht hc
        obtain ⟨hts, ht'⟩ := hdata t r' ht
        exact hB.memk t r' ht' hc
      · intro t hmem' r' ht
        obtain ⟨hts, ht'⟩ := hdata t r' ht
        have : t ∈ σ.bucket1 := by
          rw [hb]
          rw [hb] at hmem'
          exact List.mem_cons_of_mem s hmem'
        exact hB.card1 t this r' ht'
      · intro k t hmem' r' ht
        obtain ⟨hts, ht'⟩ := hdata t r' ht
        exact hB.cardk k t hmem' r' ht'
      · exact hB.low
    · -- currency precondition
      intro t r' ht
      obtain ⟨hts, ht'⟩ := hdata t r' ht
      show r'.unknown \ r.unknown = r'.words.toFinset \ (σ.known_words ∪ r.unknown)
      rw [hC t r' ht']
      ext w
      simp only [Finset.mem_sdiff, Finset.mem_union]
      tauto
    · -- coverage precondition
      intro t r' ht hne
      obtain ⟨hts, ht'⟩ := hdata t r' ht
      obtain ⟨w, hw⟩ := hne
      obtain ⟨hwu, hwn⟩ := Finset.mem_inter.mp hw
      have hwords : w ∈ r'.words := by
        have := hC t r' ht'
        rw [this] at hwu
        exact List.mem_toFinset.mp (Finset.mem_sdiff.mp hwu).1
      have hnk : w ∉ σ.known_words := by
        have := hC t r' ht'
        rw [this] at hwu
        exact (Finset.mem_sdiff.mp hwu).2
      obtain ⟨S, hS, hmemS⟩ := hW t r' ht' w hwords hnk
      refine ⟨w, hwn, ?_⟩
      show t ∈ (σ.word_to_sentences w).getD ∅
      rw [hS]
      simpa using hmemS
    · -- newly learned words are known afterwards
      show r.unknown ⊆ σ.known_words ∪ r.unknown
      exact Finset.subset_union_right
    · -- reverse-index completeness of the pre-propagation state
      intro t r' ht w hww hwk
      obtain ⟨hts, ht'⟩ := hdata t r' ht
      have hwk' : w ∉ σ.known_words := by
        intro hmem'
        exact hwk (Finset.mem_union_left _ hmem')
      exact hW t r' ht' w hww hwk'

/-! ### Lemmas about `scanBucket`, `resortPick` and `getNext` -/

lemma scanBucket_out_subset {d : String → Option SentenceRec} {c : ℕ} {l : List String}
    {t : String} (h : t ∈ (scanBucket d c l).2.2) : t ∈ l := by
  induction c generalizing l with
  | zero => simp only [scanBucket] at h; exact h
  | succ c ih =>
    cases l with
    | nil => simp only [scanBucket] at h; exact h
    | cons a rest =>
      by_cases ha : (d a).isSome
      · simpa [scanBucket, ha] using h
      · simp only [scanBucket, ha, if_false] at h
        exact List.mem_cons_of_mem a (ih h)

lemma scanBucket_live_preserved {d : String → Option SentenceRec} {c : ℕ}
    {l : List String} {t : String} (hl : t ∈ l) (ht : (d t).isSome) :
    t ∈ (scanBucket d c l).2.2 := by
  induction c generalizing l with
  | zero => simpa [scanBucket] using hl
  | succ c ih =>
    cases l with
    | nil => simp at hl
    | cons a rest =>
      by_cases ha : (d a).isSome
      · simpa [scanBucket, ha] using hl
      · simp only [scanBucket, ha, if_false]
        apply ih
        rcases List.mem_cons.mp hl with h | h
        · exact absurd ht (h ▸ ha)
        · exact h

lemma scanBucket_some_head {d : String → Option SentenceRec} {c : ℕ} {l : List String}
    {s : String} {c' : ℕ} {b' : List String}
    (h : scanBucket d c l = (some s, c', b')) :
    b'.head? = some s ∧ (d s).isSome ∧ s ∈ l := by
  induction c generalizing l with
  | zero => simp [scanBucket] at h
  | succ c ih =>
    cases l with
    | nil => simp [scanBucket] at h
    | cons a rest =>
      by_cases ha : (d a).isSome
      · simp only [scanBucket, ha, if_true, Prod.mk.injEq, Option.some.injEq] at h
        obtain ⟨h1, -, h3⟩ := h
        subst h1
        subst h3
        exact ⟨List.head?_cons, ha, List.mem_cons_self a rest⟩
      · simp only [scanBucket, ha, if_false] at h
        obtain ⟨h1, h2, h3⟩ := ih h
        exact ⟨h1, h2, List.mem_cons_of_mem a h3⟩

lemma scanBucket_none_cases {d : String → Option SentenceRec} {c : ℕ} {l : List String}
    {c' : ℕ} {b' : List String} (h : scanBucket d c l = (none, c', b')) :
    b' = [] ∨ c' = 0 := by
  induction c generalizing l with
  | zero =>
    simp only [scanBucket, Prod.mk.injEq] at h
    right; exact h.2.1.symm
  | succ c ih =>
    cases l with
    | nil =>
      simp only [scanBucket, Prod.mk.injEq] at h
      left; exact h.2.2.symm
    | cons a rest =>
      by_cases ha : (d a).isSome
      · simp [scanBucket, ha] at h
      · simp only [scanBucket, ha, if_false] at h
        exact ih h

lemma scanBucket_none_empty_all_dead {d : String → Option SentenceRec} {c : ℕ}
    {l : List String} {c' : ℕ} (h : scanBucket d c l = (none, c', []))
    {t : String} (hl : t ∈ l) : d t = none := by
  by_contra hne
  have ht : (d t).isSome := Option.isSome_iff_ne_none.mpr hne
  have := scanBucket_live_preserved (c := c) hl ht
  rw [h] at this
  simp at this

lemma scanBucket_cons_live {d : String → Option SentenceRec} {c : ℕ} {a : String}
    {rest : List String} (ha : (d a).isSome) (hc : 0 < c) :
    scanBucket d c (a :: rest) = (some a, c - 1, a :: rest) := by
  cases c with
  | zero => omega
  | succ c => simp [scanBucket, ha]

/-- Membership in the cleaned frontier. -/
lemma mem_cleanedOf {σ : OrgState} {t : String} :
    t ∈ cleanedOf σ ↔ t ∈ σ.bucket1 ∧ (σ.sentence_data t).isSome := by
  unfold cleanedOf
  rw [List.mem_filter]

lemma mem_sortedOf {σ : OrgState} {t : String} :
    t ∈ sortedOf σ ↔ t ∈ cleanedOf σ := by
  unfold sortedOf
  rw [List.mem_insertionSort]

/-- Closed form of `resortPick`: on an all-dead (or empty) frontier it
signals exhaustion; otherwise the cleaned frontier is sorted and its first
element — live by construction — is returned at once, with the batch counter
set to `(n + 1) / 2` minus the one pick just consumed. -/
lemma resortPick_eq (σ : OrgState) :
    resortPick σ =
      if cleanedOf σ = [] then (none, { σ with bucket1 := [] })
      else
        (some (sortedOf σ).headI, { σ with
          bucket1 := sortedOf σ
          n1_counter := some (((sortedOf σ).length + 1) / 2 - 1) }) := by
  unfold resortPick
  by_cases hcl : cleanedOf σ = []
  · simp [hcl]
  · have hemp : ¬((cleanedOf σ).isEmpty = true) := by
      simpa [List.isEmpty_iff] using hcl
    rw [if_neg hemp, if_neg hcl]
    obtain ⟨a, rest, hs⟩ : ∃ a rest, sortedOf σ = a :: rest := by
      cases hl : sortedOf σ with
      | nil =>
        exfalso
        apply hcl
        have hp := List.perm_insertionSort
          (fun a b => sortKey σ.sentence_data a ≤ sortKey σ.sentence_data b) (cleanedOf σ)
        rw [show List.insertionSort
          (fun a b => sortKey σ.sentence_data a ≤ sortKey σ.sentence_data b) (cleanedOf σ)
            = sortedOf σ from rfl, hl] at hp
        exact hp.symm.eq_nil
      | cons a rest => exact ⟨a, rest, rfl⟩
    rw [hs]
    have ha : (σ.sentence_data a).isSome := by
      have hmem : a ∈ sortedOf σ := by rw [hs]; exact List.mem_cons_self a rest
      exact (mem_cleanedOf.mp (mem_sortedOf.mp hmem)).2
    rw [scanBucket_cons_live ha (by simp [List.length_cons]; omega)]
    rfl

lemma resortPick_state (σ : OrgState) :
    ((resortPick σ).2).sentence_data = σ.sentence_data ∧
    ((resortPick σ).2).known_words = σ.known_words ∧
    ((resortPick σ).2).buckets = σ.buckets ∧
    ((resortPick σ).2).word_to_sentences = σ.word_to_sentences := by
  rw [resortPick_eq]
  split
  · exact ⟨rfl, rfl, rfl, rfl⟩
  · exact ⟨rfl, rfl, rfl, rfl⟩

lemma sortedOf_cons_of_ne {σ : OrgState} (hcl : cleanedOf σ ≠ []) :
    ∃ a rest, sortedOf σ = a :: rest := by
  cases hl : sortedOf σ with
  | nil =>
    exfalso
    apply hcl
    have hp := List.perm_insertionSort
      (fun a b => sortKey σ.sentence_data a ≤ sortKey σ.sentence_data b) (cleanedOf σ)
    rw [show List.insertionSort
      (fun a b => sortKey σ.sentence_data a ≤ sortKey σ.sentence_data b) (cleanedOf σ)
        = sortedOf σ from rfl, hl] at hp
    exact hp.symm.eq_nil
  | cons a rest => exact ⟨a, rest, rfl⟩

lemma resortPick_some {σ σ' : OrgState} {s : String}
    (h : resortPick σ = (some s, σ')) :
    (σ.sentence_data s).isSome ∧ s ∈ σ.bucket1 ∧ σ'.bucket1.head? = some s := by
  rw [resortPick_eq] at h
  split at h
  · simp at h
  · rename_i hcl
    obtain ⟨a, rest, hs⟩ := sortedOf_cons_of_ne hcl
    rw [hs] at h
    simp only [List.headI, Prod.mk.injEq, Option.some.injEq] at h
    obtain ⟨ha, hσ'⟩ := h
    have hmem : a ∈ sortedOf σ := by rw [hs]; exact List.mem_cons_self a rest
    obtain ⟨hm, hlive⟩ := mem_cleanedOf.mp (mem_sortedOf.mp hmem)
    refine ⟨ha ▸ hlive, ha ▸ hm, ?_⟩
    rw [← hσ']
    show (a :: rest).head? = some s
    rw [List.head?_cons, ha]

lemma resortPick_none {σ σ' : OrgState} (h : resortPick σ = (none, σ')) :
    ∀ t ∈ σ.bucket1, σ.sentence_data t = none := by
  rw [resortPick_eq] at h
  split at h
  · rename_i hcl
    intro t htm
    by_contra hne
    have : t ∈ cleanedOf σ :=
      mem_cleanedOf.mpr ⟨htm, Option.isSome_iff_ne_none.mpr hne⟩
    rw [hcl] at this
    exact List.not_mem_nil t this
  · simp at h

lemma resortPick_live_mem {σ σ' : OrgState} {res : Option String} {t : String}
    (h : resortPick σ = (res, σ')) (hm : t ∈ σ.bucket1)
    (ht : (σ.sentence_data t).isSome) : t ∈ σ'.bucket1 := by
  rw [resortPick_eq] at h
  split at h
  · rename_i hcl
    exfalso
    have : t ∈ cleanedOf σ := mem_cleanedOf.mpr ⟨hm, ht⟩
    rw [hcl] at this
    exact List.not_mem_nil t this
  · obtain ⟨-, hσ'⟩ := Prod.mk.injEq .. ▸ h
    rw [← hσ']
    show t ∈ sortedOf σ
    exact mem_sortedOf.mpr (mem_cleanedOf.mpr ⟨hm, ht⟩)

lemma resortPick_out_subset {σ σ' : OrgState} {res : Option String} {t : String}
    (h : resortPick σ = (res, σ')) (hm : t ∈ σ'.bucket1) : t ∈ σ.bucket1 := by
  rw [resortPick_eq] at h
  split at h
  · obtain ⟨-, hσ'⟩ := Prod.mk.injEq .. ▸ h
    rw [← hσ'] at hm
    exact absurd hm (List.not_mem_nil t)
  · obtain ⟨-, hσ'⟩ := Prod.mk.injEq .. ▸ h
    rw [← hσ'] at hm
    have hmem : t ∈ sortedOf σ := hm
    exact (mem_cleanedOf.mp (mem_sortedOf.mp hmem)).1

lemma scanPick_state (σ : OrgState) :
    ((scanPick σ).2).sentence_data = σ.sentence_data ∧
    ((scanPick σ).2).known_words = σ.known_words ∧
    ((scanPick σ).2).buckets = σ.buckets ∧
    ((scanPick σ).2).word_to_sentences = σ.word_to_sentences := by
  unfold scanPick
  cases hscan : scanBucket σ.sentence_data (σ.n1_counter.getD 0) σ.bucket1 with
  | mk res p =>
    obtain ⟨c', b'⟩ := p
    cases res with
    | some s => exact ⟨rfl, rfl, rfl, rfl⟩
    | none =>
      dsimp only
      split
      · exact ⟨rfl, rfl, rfl, rfl⟩
      · exact resortPick_state _

lemma scanPick_some {σ σ' : OrgState} {s : String} (h : scanPick σ = (some s, σ')) :
    (σ.sentence_data s).isSome ∧ s ∈ σ.bucket1 ∧ σ'.bucket1.head? = some s := by
  unfold scanPick at h
  cases hscan : scanBucket σ.sentence_data (σ.n1_counter.getD 0) σ.bucket1 with
  | mk res p =>
    obtain ⟨c', b'⟩ := p
    rw [hscan] at h
    cases res with
    | some s0 =>
      simp only [Prod.mk.injEq, Option.some.injEq] at h
      obtain ⟨hs0, hσ'⟩ := h
      obtain ⟨hhead, hlive, hmem⟩ := scanBucket_some_head hscan
      refine ⟨hs0 ▸ hlive, hs0 ▸ hmem, ?_⟩
      rw [← hσ']
      show b'.head? = some s
      rw [hhead, hs0]
    | none =>
      dsimp only at h
      split at h
      · simp at h
      · obtain ⟨hlive, hmem, hhead⟩ := resortPick_some h
        refine ⟨hlive, ?_, hhead⟩
        have hb : s ∈ b' := hmem
        apply scanBucket_out_subset (d := σ.sentence_data) (c := σ.n1_counter.getD 0)
        rw [hscan]
        exact hb

lemma scanPick_none_dead {σ σ' : OrgState} (h : scanPick σ = (none, σ')) :
    ∀ t ∈ σ.bucket1, σ.sentence_data t = none := by
  unfold scanPick at h
  cases hscan : scanBucket σ.sentence_data (σ.n1_counter.getD 0) σ.bucket1 with
  | mk res p =>
    obtain ⟨c', b'⟩ := p
    rw [hscan] at h
    cases res with
    | some s0 => simp at h
    | none =>
      dsimp only at h
      split at h
      · rename_i hbe
        have hb' : b' = [] := by simpa [List.isEmpty_iff] using hbe
        rw [hb'] at hscan
        intro t htm
        exact scanBucket_none_empty_all_dead hscan htm
      · intro t htm
        by_contra hne
        have ht : (σ.sentence_data t).isSome := Option.isSome_iff_ne_none.mpr hne
        have htb : t ∈ b' := by
          have := scanBucket_live_preserved (c := σ.n1_counter.getD 0) htm ht
          rw [hscan] at this
          exact this
        have := resortPick_none h t htb
        exact hne this

lemma scanPick_live_mem {σ σ' : OrgState} {res : Option String} {t : String}
    (h : scanPick σ = (res, σ')) (hm : t ∈ σ.bucket1)
    (ht : (σ.sentence_data t).isSome) : t ∈ σ'.bucket1 := by
  unfold scanPick at h
  cases hscan : scanBucket σ.sentence_data (σ.n1_counter.getD 0) σ.bucket1 with
  | mk res0 p =>
    obtain ⟨c', b'⟩ := p
    rw [hscan] at h
    have htb : t ∈ b' := by
      have := scanBucket_live_preserved (c := σ.n1_counter.getD 0) hm ht
      rw [hscan] at this
      exact this
    cases res0 with
    | some s0 =>
      obtain ⟨-, hσ'⟩ := Prod.mk.injEq .. ▸ h
      rw [← hσ']
      exact htb
    | none =>
      dsimp only at h
      split at h
      · obtain ⟨-, hσ'⟩ := Prod.mk.injEq .. ▸ h
        rw [← hσ']
        exact htb
      · exact resortPick_live_mem h htb ht

lemma scanPick_out_subset {σ σ' : OrgState} {res : Option String} {t : String}
    (h : scanPick σ = (res, σ')) (hm : t ∈ σ'.bucket1) : t ∈ σ.bucket1 := by
  unfold scanPick at h
  cases hscan : scanBucket σ.sentence_data (σ.n1_counter.getD 0) σ.bucket1 with
  | mk res0 p =>
    obtain ⟨c', b'⟩ := p
    rw [hscan] at h
    have hsub : ∀ u, u ∈ b' → u ∈ σ.bucket1 := by
      intro u hu
      apply scanBucket_out_subset (d := σ.sentence_data) (c := σ.n1_counter.getD 0)
      rw [hscan]
      exact hu
    cases res0 with
    | some s0 =>
      obtain ⟨-, hσ'⟩ := Prod.mk.injEq .. ▸ h
      rw [← hσ'] at hm
      exact hsub t hm
    | none =>
      dsimp only at h
      split at h
      · obtain ⟨-, hσ'⟩ := Prod.mk.injEq .. ▸ h
        rw [← hσ'] at hm
        exact hsub t hm
      · exact hsub t (resortPick_out_subset h hm)

/-! ### `getNext`: state preservation and outcome characterization -/

lemma getNext_state (σ : OrgState) :
    ((getNext σ).2).sentence_data = σ.sentence_data ∧
    ((getNext σ).2).known_words = σ.known_words ∧
    ((getNext σ).2).buckets = σ.buckets ∧
    ((getNext σ).2).word_to_sentences = σ.word_to_sentences := by
  unfold getNext
  split
  · exact ⟨rfl, rfl, rfl, rfl⟩
  · split
    · exact resortPick_state σ
    · exact scanPick_state σ

lemma getNext_some {σ σ' : OrgState} {s : String} (h : getNext σ = (some s, σ')) :
    (σ.sentence_data s).isSome ∧ s ∈ σ.bucket1 ∧ σ'.bucket1.head? = some s := by
  unfold getNext at h
  split at h
  · simp at h
  · split at h
    · exact resortPick_some h
    · exact scanPick_some h

lemma getNext_none_dead {σ σ' : OrgState} (h : getNext σ = (none, σ')) :
    ∀ t ∈ σ.bucket1, σ.sentence_data t = none := by
  unfold getNext at h
  split at h
  · rename_i hbe
    intro t htm
    rw [List.isEmpty_iff.mp hbe] at htm
    exact absurd htm (List.not_mem_nil t)
  · split at h
    · exact resortPick_none h
    · exact scanPick_none_dead h

lemma getNext_live_mem {σ σ' : OrgState} {res : Option String} {t : String}
    (h : getNext σ = (res, σ')) (hm : t ∈ σ.bucket1)
    (ht : (σ.sentence_data t).isSome) : t ∈ σ'.bucket1 := by
  unfold getNext at h
  split at h
  · obtain ⟨-, hσ'⟩ := Prod.mk.injEq .. ▸ h
    rw [← hσ']
    exact hm
  · split at h
    · exact resortPick_live_mem h hm ht
    · exact scanPick_live_mem h hm ht

lemma getNext_out_subset {σ σ' : OrgState} {res : Option String} {t : String}
    (h : getNext σ = (res, σ')) (hm : t ∈ σ'.bucket1) : t ∈ σ.bucket1 := by
  unfold getNext at h
  split at h
  · obtain ⟨-, hσ'⟩ := Prod.mk.injEq .. ▸ h
    rw [← hσ'] at hm
    exact hm
  · split at h
    · exact resortPick_out_subset h hm
    · exact scanPick_out_subset h hm

/-- `get_next_sentence` preserves the organizer invariant (it only cleans
dead entries out of the frontier, sorts it, and manages the batch counter). -/
lemma getNext_preserves_inv {σ : OrgState} (hI : OrgInv σ) : OrgInv (getNext σ).2 := by
  obtain ⟨hB, hC, hW⟩ := hI
  have hg : getNext σ = ((getNext σ).1, (getNext σ).2) := rfl
  obtain ⟨hd, hk, hbk, hw2s⟩ := getNext_state σ
  refine ⟨⟨?_, ?_, ?_, ?_, ?_, ?_⟩, ?_, ?_⟩
  · intro t r ht
    rw [hd] at ht
    exact hB.nonempty t r ht
  · intro t r ht hc
    rw [hd] at ht
    exact getNext_live_mem hg (hB.mem1 t r ht hc) (by rw [ht]; rfl)
  · intro t r ht hc
    rw [hd] at ht
    rw [hbk]
    exact hB.memk t r ht hc
  · intro t hmem r ht
    rw [hd] at ht
    exact hB.card1 t (getNext_out_subset hg hmem) r ht
  · intro k t hmem r ht
    rw [hd] at ht
    rw [hbk] at hmem
    exact hB.cardk k t hmem r ht
  · intro k hk
    rw [hbk]
    exact hB.low k hk
  · intro t r ht
    rw [hd] at ht
    rw [hk]
    exact hC t r ht
  · intro t r ht w hww hwk
    rw [hd] at ht
    rw [hk] at hwk
    rw [hw2s]
    exact hW t r ht w hww hwk

/-- Exhaustion characterization of `get_next_sentence` on states satisfying
the bucket invariant: the terminal signal is returned exactly when no live
record has exactly one unknown word. -/
lemma getNext_none_iff {σ : OrgState} (hB : BucketInv σ) :
    (getNext σ).1 = none ↔
      ∀ t r, σ.sentence_data t = some r → r.unknown.card ≠ 1 := by
  constructor
  · intro h t r ht hc
    have hg : getNext σ = (none, (getNext σ).2) := by rw [← h]
    have hdead := getNext_none_dead hg t (hB.mem1 t r ht hc)
    rw [ht] at hdead
    cases hdead
  · intro hnone
    cases hres : (getNext σ).1 with
    | none => rfl
    | some s =>
      exfalso
      have hg : getNext σ = (some s, (getNext σ).2) := by rw [← hres]
      obtain ⟨hlive, hmem, -⟩ := getNext_some hg
      obtain ⟨r, hr⟩ := Option.isSome_iff_exists.mp hlive
      exact hnone s r hr (hB.card1 s hmem r hr)

/-! ### Initialization: `_process_sentence` and the `__init__` loop -/

lemma w2sAdd_self {m : String → Option (Finset String)} {w sentence : String} :
    w2sAdd m w sentence w = some (insert sentence ((m w).getD ∅)) := by
  unfold w2sAdd
  rw [if_pos rfl]

lemma w2sAdd_ne {m : String → Option (Finset String)} {w w' sentence : String}
    (h : w' ≠ w) : w2sAdd m w sentence w' = m w' := by
  unfold w2sAdd
  rw [if_neg h]

lemma registerWords_mono {sentence : String} {words : List String}
    {m : String → Option (Finset String)} {w t : String} {S : Finset String}
    (h : m w = some S) (ht : t ∈ S) :
    ∃ S', registerWords sentence words m w = some S' ∧ t ∈ S' := by
  induction words generalizing m S with
  | nil => exact ⟨S, h, ht⟩
  | cons w0 rest ih =>
    show ∃ S', registerWords sentence rest (w2sAdd m w0 sentence) w = some S' ∧ t ∈ S'
    by_cases hww : w = w0
    · subst hww
      exact ih (S := insert sentence ((m w).getD ∅)) w2sAdd_self
        (by rw [h]; exact Finset.mem_insert_of_mem (by simpa using ht))
    · exact ih (S := S) (by rw [w2sAdd_ne hww]; exact h) ht

lemma registerWords_mem {sentence : String} {words : List String}
    {m : String → Option (Finset String)} {w : String} (hw : w ∈ words) :
    ∃ S, registerWords sentence words m w = some S ∧ sentence ∈ S := by
  induction words generalizing m with
  | nil => exact absurd hw (List.not_mem_nil w)
  | cons w0 rest ih =>
    show ∃ S, registerWords sentence rest (w2sAdd m w0 sentence) w = some S ∧ sentence ∈ S
    by_cases hww : w = w0
    · subst hww
      exact registerWords_mono w2sAdd_self (Finset.mem_insert_self sentence _)
    · rcases List.mem_cons.mp hw with h | h
      · exact absurd h hww
      · exact ih h

lemma processSentence_empty {ranks : String → Option ℕ} {σ : OrgState}
    {s : String} {words : List String} (he : words.toFinset \ σ.known_words = ∅) :
    processSentence ranks σ s words =
      { σ with skipped_sentences := σ.skipped_sentences + 1 } := by
  unfold processSentence
  rw [if_pos he]

lemma processSentence_known {ranks : String → Option ℕ} {σ : OrgState}
    {s : String} {words : List String} :
    (processSentence ranks σ s words).known_words = σ.known_words := by
  by_cases he : words.toFinset \ σ.known_words = ∅ <;>
    by_cases h1 : (words.toFinset \ σ.known_words).card = 1 <;>
    simp [processSentence, he, h1]

lemma processSentence_data_self {ranks : String → Option ℕ} {σ : OrgState}
    {s : String} {words : List String} (hne : words.toFinset \ σ.known_words ≠ ∅) :
    (processSentence ranks σ s words).sentence_data s =
      some ⟨words, words.toFinset \ σ.known_words,
        maxRankOf ranks (words.toFinset \ σ.known_words)⟩ := by
  by_cases h1 : (words.toFinset \ σ.known_words).card = 1 <;>
    simp [processSentence, hne, h1]

lemma processSentence_data_ne {ranks : String → Option ℕ} {σ : OrgState}
    {s t : String} {words : List String} (hts : t ≠ s) :
    (processSentence ranks σ s words).sentence_data t = σ.sentence_data t := by
  by_cases he : words.toFinset \ σ.known_words = ∅ <;>
    by_cases h1 : (words.toFinset \ σ.known_words).card = 1 <;>
    simp [processSentence, he, h1, hts]

lemma processSentence_bucket1 {ranks : String → Option ℕ} {σ : OrgState}
    {s : String} {words : List String} (hne : words.toFinset \ σ.known_words ≠ ∅) :
    (processSentence ranks σ s words).bucket1 =
      if (words.toFinset \ σ.known_words).card = 1 then σ.bucket1 ++ [s]
      else σ.bucket1 := by
  by_cases h1 : (words.toFinset \ σ.known_words).card = 1 <;>
    simp [processSentence, hne, h1]

lemma processSentence_buckets {ranks : String → Option ℕ} {σ : OrgState}
    {s : String} {words : List String} (hne : words.toFinset \ σ.known_words ≠ ∅)
    (k : ℕ) :
    (processSentence ranks σ s words).buckets k =
      if (words.toFinset \ σ.known_words).card ≠ 1 ∧
          k = (words.toFinset \ σ.known_words).card then
        insert s (σ.buckets k)
      else σ.buckets k := by
  by_cases h1 : (words.toFinset \ σ.known_words).card = 1 <;>
    by_cases hk : k = (words.toFinset \ σ.known_words).card <;>
    simp [processSentence, hne, h1, hk]

lemma processSentence_w2s {ranks : String → Option ℕ} {σ : OrgState}
    {s : String} {words : List String} (hne : words.toFinset \ σ.known_words ≠ ∅) :
    (processSentence ranks σ s words).word_to_sentences =
      registerWords s words σ.word_to_sentences := by
  by_cases h1 : (words.toFinset \ σ.known_words).card = 1 <;>
    simp [processSentence, hne, h1]

/-- Records are minted only at initialization: every live record's tokens are
the segmentation of its sentence, and its priority is the aggregation over
its creation-time unknown set (tokens minus the initial known vocabulary). -/
structure RecOrigin (ranks : String → Option ℕ) (seg : String → List String)
    (initW : Finset String) (σ : OrgState) : Prop where
  words_eq : ∀ s r, σ.sentence_data s = some r → r.words = seg s
  rank_eq : ∀ s r, σ.sentence_data s = some r →
    r.max_rank = maxRankOf ranks ((seg s).toFinset \ (PUNCTUATION ∪ initW))

/-- During initialization no record is ever deleted, so every bucket entry
has a live record. -/
def AllLive (σ : OrgState) : Prop :=
  (∀ t ∈ σ.bucket1, σ.sentence_data t ≠ none) ∧
  (∀ k : ℕ, ∀ t ∈ σ.buckets k, σ.sentence_data t ≠ none)

lemma processSentence_initStep {ranks : String → Option ℕ}
    {seg : String → List String} {initW : Finset String} {σ : OrgState} {s : String}
    (hkn : σ.known_words = PUNCTUATION ∪ initW)
    (hI : OrgInv σ) (hR : RecOrigin ranks seg initW σ) (hL : AllLive σ) :
    (processSentence ranks σ s (seg s)).known_words = PUNCTUATION ∪ initW ∧
    OrgInv (processSentence ranks σ s (seg s)) ∧
    RecOrigin ranks seg initW (processSentence ranks σ s (seg s)) ∧
    AllLive (processSentence ranks σ s (seg s)) := by
  obtain ⟨hB, hC, hW⟩ := hI
  refine ⟨by rw [processSentence_known, hkn], ?_, ?_, ?_⟩
  · by_cases he : (seg s).toFinset \ σ.known_words = ∅
    · rw [processSentence_empty he]
      exact ⟨⟨hB.nonempty, hB.mem1, hB.memk, hB.card1, hB.cardk, hB.low⟩, hC, hW⟩
    · have hdata_old : ∀ r0, σ.sentence_data s = some r0 →
          r0.unknown = (seg s).toFinset \ σ.known_words := by
        intro r0 h0
        rw [hC s r0 h0, hR.words_eq s r0 h0]
      have hdat : ∀ t r', (processSentence ranks σ s (seg s)).sentence_data t = some r' →
          (t = s ∧ r' = ⟨seg s, (seg s).toFinset \ σ.known_words,
            maxRankOf ranks ((seg s).toFinset \ σ.known_words)⟩) ∨
          (t ≠ s ∧ σ.sentence_data t = some r') := by
        intro t r' ht
        by_cases hts : t = s
        · subst hts
          rw [processSentence_data_self he] at ht
          cases ht
          exact Or.inl ⟨rfl, rfl⟩
        · rw [processSentence_data_ne hts] at ht
          exact Or.inr ⟨hts, ht⟩
      constructor
      · constructor
        · intro t r' ht
          rcases hdat t r' ht with ⟨-, rfl⟩ | ⟨-, ht'⟩
          · exact he
          · exact hB.nonempty t r' ht'
        · intro t r' ht hc
          rw [processSentence_bucket1 he]
          rcases hdat t r' ht with ⟨rfl, rfl⟩ | ⟨hts, ht'⟩
          · rw [if_pos hc]
            exact List.mem_append_right _ (List.mem_singleton_self t)
          · have := hB.mem1 t r' ht' hc
            split
            · exact List.mem_append_left _ this
            · exact this
        · intro t r' ht hc
          rw [processSentence_buckets he]
          rcases hdat t r' ht with ⟨rfl, rfl⟩ | ⟨hts, ht'⟩
          · rw [if_pos ⟨hc, rfl⟩]
            exact Finset.mem_insert_self t _
          · have := hB.memk t r' ht' hc
            split
            · exact Finset.mem_insert_of_mem this
            · exact this
        · intro t hmem r' ht
          rw [processSentence_bucket1 he] at hmem
          rcases hdat t r' ht with ⟨rfl, rfl⟩ | ⟨hts, ht'⟩
          · split at hmem
            · assumption
            · rename_i hc1
              cases hds0 : σ.sentence_data t with
              | none => exact absurd hds0 (hL.1 t hmem)
              | some r0 =>
                have h1 := hB.card1 t hmem r0 hds0
                have h2 := hdata_old r0 hds0
                rw [h2] at h1
                exact absurd h1 hc1
          · split at hmem
            · rcases List.mem_append.mp hmem with h | h
              · exact hB.card1 t h r' ht'
              · exact absurd (List.mem_singleton.mp h) hts
            · exact hB.card1 t hmem r' ht'
        · intro k t hmem r' ht
          rw [processSentence_buckets he] at hmem
          rcases hdat t r' ht with ⟨rfl, rfl⟩ | ⟨hts, ht'⟩
          · have hold : t ∈ σ.buckets k → ((seg t).toFinset \ σ.known_words).card = k := by
              intro h
              cases hds0 : σ.sentence_data t with
              | none => exact absurd hds0 (hL.2 k t h)
              | some r0 =>
                have h1 := hB.cardk k t h r0 hds0
                have h2 := hdata_old r0 hds0
                rw [h2] at h1
                exact h1
            split at hmem
            · rename_i hcond
              rcases Finset.mem_insert.mp hmem with h | h
              · exact hcond.2.symm
              · exact hold h
            · exact hold hmem
          · have hmem' : t ∈ σ.buckets k := by
              split at hmem
              · rcases Finset.mem_insert.mp hmem with h | h
                · exact absurd h hts
                · exact h
              · exact hmem
            exact hB.cardk k t hmem' r' ht'
        · intro k hk
          rw [processSentence_buckets he]
          have hcpos : 0 < ((seg s).toFinset \ σ.known_words).card :=
            Finset.card_pos.mpr (Finset.nonempty_iff_ne_empty.mpr he)
          rw [if_neg (by rintro ⟨hc1, hkc⟩; omega)]
          exact hB.low k hk
      · constructor
        · intro t r' ht
          rw [processSentence_known]
          rcases hdat t r' ht with ⟨rfl, rfl⟩ | ⟨hts, ht'⟩
          · rfl
          · exact hC t r' ht'
        · intro t r' ht w hww hwk
          rw [processSentence_known] at hwk
          rw [processSentence_w2s he]
          rcases hdat t r' ht with ⟨rfl, rfl⟩ | ⟨hts, ht'⟩
          · exact registerWords_mem hww
          · obtain ⟨S, hS, hmemS⟩ := hW t r' ht' w hww hwk
            exact registerWords_mono hS hmemS
  · by_cases he : (seg s).toFinset \ σ.known_words = ∅
    · rw [processSentence_empty he]
      exact ⟨hR.words_eq, hR.rank_eq⟩
    · constructor
      · intro t r' ht
        by_cases hts : t = s
        · subst hts
          rw [processSentence_data_self he] at ht
          cases ht
          rfl
        · rw [processSentence_data_ne hts] at ht
          exact hR.words_eq t r' ht
      · intro t r' ht
        by_cases hts : t = s
        · subst hts
          rw [processSentence_data_self he] at ht
          cases ht
          rw [← hkn]
        · rw [processSentence_data_ne hts] at ht
          exact hR.rank_eq t r' ht
  · by_cases he : (seg s).toFinset \ σ.known_words = ∅
    · rw [processSentence_empty he]
      exact ⟨hL.1, hL.2⟩
    · have hlive : ∀ t, σ.sentence_data t ≠ none →
          (processSentence ranks σ s (seg s)).sentence_data t ≠ none := by
        intro t hne
        by_cases hts : t = s
        · subst hts
          rw [processSentence_data_self he]
          simp
        · rw [processSentence_data_ne hts]
          exact hne
      constructor
      · intro t hmem
        rw [processSentence_bucket1 he] at hmem
        by_cases hts : t = s
        · subst hts
          rw [processSentence_data_self he]
          simp
        · have htold : t ∈ σ.bucket1 := by
            split at hmem
            · rcases List.mem_append.mp hmem with h | h
              · exact h
              · exact absurd (List.mem_singleton.mp h) hts
            · exact hmem
          exact hlive t (hL.1 t htold)
      · intro k t hmem
        rw [processSentence_buckets he] at hmem
        by_cases hts : t = s
        · subst hts
          rw [processSentence_data_self he]
          simp
        · have htold : t ∈ σ.buckets k := by
            split at hmem
            · rcases Finset.mem_insert.mp hmem with h | h
              · exact absurd h hts
              · exact h
            · exact hmem
          exact hlive t (hL.2 k t htold)

/-- Initialization establishes the organizer invariant, the record-origin
property, and all-live buckets, with the known vocabulary being the
punctuation set plus the initial words. -/
lemma initState_inv (ranks : String → Option ℕ) (seg : String → List String)
    (sentences : List String) (initW : Finset String) :
    (initState ranks seg sentences initW).known_words = PUNCTUATION ∪ initW ∧
    OrgInv (initState ranks seg sentences initW) ∧
    RecOrigin ranks seg initW (initState ranks seg sentences initW) := by
  have H : ∀ σ : OrgState, σ.known_words = PUNCTUATION ∪ initW → OrgInv σ →
      RecOrigin ranks seg initW σ → AllLive σ →
      ((sentences.foldl (fun σ s => processSentence ranks
          { σ with all_words := σ.all_words ∪ (seg s).toFinset } s (seg s)) σ).known_words
          = PUNCTUATION ∪ initW ∧
        OrgInv (sentences.foldl (fun σ s => processSentence ranks
          { σ with all_words := σ.all_words ∪ (seg s).toFinset } s (seg s)) σ) ∧
        RecOrigin ranks seg initW (sentences.foldl (fun σ s => processSentence ranks
          { σ with all_words := σ.all_words ∪ (seg s).toFinset } s (seg s)) σ) ∧
        AllLive (sentences.foldl (fun σ s => processSentence ranks
          { σ with all_words := σ.all_words ∪ (seg s).toFinset } s (seg s)) σ)) := by
    induction sentences with
    | nil => exact fun σ h1 h2 h3 h4 => ⟨h1, h2, h3, h4⟩
    | cons s rest ih =>
      intro σ h1 h2 h3 h4
      rw [List.foldl_cons]
      obtain ⟨hB, hC, hW⟩ := h2
      obtain ⟨k1, k2, k3, k4⟩ := processSentence_initStep
        (σ := { σ with all_words := σ.all_words ∪ (seg s).toFinset })
        (s := s) h1
        ⟨⟨hB.nonempty, hB.mem1, hB.memk, hB.card1, hB.cardk, hB.low⟩, hC, hW⟩
        ⟨h3.words_eq, h3.rank_eq⟩ h4
      exact ih _ k1 k2 k3 k4
  obtain ⟨k1, k2, k3, -⟩ := H
    { known_words := PUNCTUATION ∪ initW
      bucket1 := []
      buckets := fun _ => ∅
      sentence_data := fun _ => none
      word_to_sentences := fun _ => none
      all_words := ∅
      skipped_sentences := 0
      n2_sentences_used := 0
      n1_counter := none }
    rfl
    ⟨⟨(fun t r ht => by cases ht), (fun t r ht => by cases ht), (fun t r ht => by cases ht),
      (fun t hm r ht => by cases ht), (fun k t hm r ht => by cases ht), (fun k hk => rfl)⟩,
      (fun t r ht => by cases ht), (fun t r ht => by cases ht)⟩
    ⟨(fun t r ht => by cases ht), (fun t r ht => by cases ht)⟩
    ⟨(fun t hm => absurd hm (List.not_mem_nil t)),
      (fun k t hm => absurd hm (Finset.not_mem_empty t))⟩
  exact ⟨k1, k2, k3⟩

/-! ### Protocol reachability: the invariants hold at every quiescent point -/

lemma updateBuckets_provenance {σ : OrgState} {nw : Finset String} {t : String}
    {r' : SentenceRec} (ht : (updateBuckets σ nw).sentence_data t = some r') :
    ∃ r0, σ.sentence_data t = some r0 ∧ r'.words = r0.words ∧
      r'.max_rank = r0.max_rank := by
  unfold updateBuckets at ht
  obtain ⟨r0, h0, hw, hm, -⟩ := processAffected_provenance ht
  exact ⟨r0, h0, hw, hm⟩

lemma learnSentence_provenance {σ σ' : OrgState} {s t : String}
    {nw : Finset String} {ws : List String} {r' : SentenceRec}
    (h : learnSentence σ s = some (σ', nw, ws))
    (ht : σ'.sentence_data t = some r') :
    t ≠ s ∧ ∃ r0, σ.sentence_data t = some r0 ∧ r'.words = r0.words ∧
      r'.max_rank = r0.max_rank := by
  cases hds : σ.sentence_data s with
  | none => rw [learnSentence_of_dead hds] at h; cases h
  | some info =>
    have core : ∀ σd : OrgState,
        σd.sentence_data = (fun u => if u = s then none else σ.sentence_data u) →
        σ' = updateBuckets σd info.unknown →
        t ≠ s ∧ ∃ r0, σ.sentence_data t = some r0 ∧ r'.words = r0.words ∧
          r'.max_rank = r0.max_rank := by
      intro σd hdd hσ'
      subst hσ'
      obtain ⟨r0, h0, hw, hm⟩ := updateBuckets_provenance ht
      rw [hdd] at h0
      have h0' : (if t = s then none else σ.sentence_data t) = some r0 := h0
      by_cases hts : t = s
      · rw [if_pos hts] at h0'; cases h0'
      · rw [if_neg hts] at h0'
        exact ⟨hts, r0, h0', hw, hm⟩
    simp only [learnSentence, hds] at h
    by_cases hc2 : info.unknown.card = 2 <;> by_cases hc1 : info.unknown.card = 1 <;>
      simp only [hc2, hc1, if_true, if_false, Prod.mk.injEq, Option.some.injEq,
        reduceIte] at h <;>
      exact core _ rfl h.1.symm

/-- Every state reachable through the public protocol satisfies the
organizer invariant and the record-origin property. -/
theorem reach_inv {ranks : String → Option ℕ} {seg : String → List String}
    {corpus : List String} {initW : Finset String} {σ : OrgState}
    (h : Reach ranks seg corpus initW σ) :
    OrgInv σ ∧ RecOrigin ranks seg initW σ := by
  induction h with
  | init =>
    obtain ⟨-, h2, h3⟩ := initState_inv ranks seg corpus initW
    exact ⟨h2, h3⟩
  | next σ0 h ih =>
    obtain ⟨hd, -, -, -⟩ := getNext_state σ0
    refine ⟨getNext_preserves_inv ih.1, ?_, ?_⟩
    · intro t r ht
      rw [hd] at ht
      exact ih.2.words_eq t r ht
    · intro t r ht
      rw [hd] at ht
      exact ih.2.rank_eq t r ht
  | learn σ0 s σ' nw ws h h1 h2 ih =>
    have hI1 : OrgInv (getNext σ0).2 := getNext_preserves_inv ih.1
    have hg : getNext σ0 = (some s, (getNext σ0).2) := by rw [← h1]
    obtain ⟨-, -, hhead⟩ := getNext_some hg
    obtain ⟨hd, -, -, -⟩ := getNext_state σ0
    refine ⟨learn_preserves_inv hI1 hhead h2, ?_, ?_⟩
    · intro t r ht
      obtain ⟨-, r0, h0, hw, -⟩ := learnSentence_provenance h2 ht
      rw [hd] at h0
      rw [hw]
      exact ih.2.words_eq t r0 h0
    · intro t r ht
      obtain ⟨-, r0, h0, -, hm⟩ := learnSentence_provenance h2 ht
      rw [hd] at h0
      rw [hm]
      exact ih.2.rank_eq t r0 h0

/-! ### Further facts about `learnSentence` -/

lemma learnSentence_known {σ σ' : OrgState} {s : String} {nw : Finset String}
    {ws : List String} (h : learnSentence σ s = some (σ', nw, ws)) :
    σ'.known_words = σ.known_words ∪ nw := by
  cases hds : σ.sentence_data s with
  | none => rw [learnSentence_of_dead hds] at h; cases h
  | some info =>
    have core : ∀ σd : OrgState, σ' = updateBuckets σd info.unknown →
        σd.known_words = σ.known_words ∪ info.unknown → nw = info.unknown →
        σ'.known_words = σ.known_words ∪ nw := by
      intro σd hσ' hkd hnw
      subst hσ'
      subst hnw
      rw [updateBuckets_known, hkd]
    simp only [learnSentence, hds] at h
    split_ifs at h <;>
      (rw [Option.some.injEq, Prod.mk.injEq, Prod.mk.injEq] at h;
       exact core _ h.1.symm rfl h.2.1.symm)

lemma learnSentence_w2s {σ σ' : OrgState} {s : String} {nw : Finset String}
    {ws : List String} (h : learnSentence σ s = some (σ', nw, ws)) (w : String) :
    σ'.word_to_sentences w = if w ∈ nw then none else σ.word_to_sentences w := by
  cases hds : σ.sentence_data s with
  | none => rw [learnSentence_of_dead hds] at h; cases h
  | some info =>
    have core : ∀ σd : OrgState, σ' = updateBuckets σd info.unknown →
        σd.word_to_sentences = σ.word_to_sentences → nw = info.unknown →
        σ'.word_to_sentences w = if w ∈ nw then none else σ.word_to_sentences w := by
      intro σd hσ' hwd hnw
      subst hσ'
      subst hnw
      rw [updateBuckets_w2s, hwd]
    simp only [learnSentence, hds] at h
    split_ifs at h <;>
      (rw [Option.some.injEq, Prod.mk.injEq, Prod.mk.injEq] at h;
       exact core _ h.1.symm rfl h.2.1.symm)

lemma learnSentence_isSome {σ : OrgState} {s : String} {info : SentenceRec}
    (hds : σ.sentence_data s = some info) :
    ∃ σ' nw ws, learnSentence σ s = some (σ', nw, ws) := by
  simp only [learnSentence, hds]
  split_ifs <;> simp

/-- On a frontier sentence (count 1), `learn_sentence` adds its unknown word
to the known vocabulary, pops the front of the count-1 bucket, deletes the
record, and runs `_update_buckets`. -/
lemma learnSentence_card1_eq {σ : OrgState} {s : String} {r : SentenceRec}
    (hds : σ.sentence_data s = some r) (hcard : r.unknown.card = 1) :
    learnSentence σ s = some
      (updateBuckets { σ with
        known_words := σ.known_words ∪ r.unknown
        bucket1 := σ.bucket1.tail
        sentence_data := fun t => if t = s then none else σ.sentence_data t } r.unknown,
       r.unknown, r.words) := by
  simp only [learnSentence, hds, hcard]
  norm_num

/-! ### The specification claims -/

/-- Claim C1 (frontier validity): for every protocol-reachable organizer
state, whenever `get_next_sentence` returns a sentence (rather than the
terminal signal `None`), that sentence has a live record in `sentence_data`
and its `unknown` set has exactly one word at the moment of return. -/
theorem claim_C1_frontier_validity {ranks : String → Option ℕ}
    {seg : String → List String} {corpus : List String} {initW : Finset String}
    {σ : OrgState} {s : String} (hreach : Reach ranks seg corpus initW σ)
    (h : (getNext σ).1 = some s) :
    ∃ r, σ.sentence_data s = some r ∧ r.unknown.card = 1 := by
  obtain ⟨⟨hB, -, -⟩, -⟩ := reach_inv hreach
  have hg : getNext σ = (some s, (getNext σ).2) := by rw [← h]
  obtain ⟨hlive, hmem, -⟩ := getNext_some hg
  obtain ⟨r, hr⟩ := Option.isSome_iff_exists.mp hlive
  exact ⟨r, hr, hB.card1 s hmem r hr⟩

/-- Witness for claim C1 on a concrete run: the initial organizer over
["AB", "BC"] returns "AB", which has a live record with one unknown word. -/
theorem claim_C1_witness :
    ∃ r, exC3start.sentence_data "AB" = some r ∧ r.unknown.card = 1 :=
  claim_C1_frontier_validity Reach.init (by decide)

/-- Claim C2 (bucket-index consistency): at every protocol-reachable
quiescent point, every live record is a member of the bucket keyed by its
current unknown-word count — the `bucket1` list for count 1, the set at key
`card` otherwise — and is a member of no bucket with a different key. -/
theorem claim_C2_bucket_consistency {ranks : String → Option ℕ}
    {seg : String → List String} {corpus : List String} {initW : Finset String}
    {σ : OrgState} {s : String} {r : SentenceRec}
    (hreach : Reach ranks seg corpus initW σ)
    (h : σ.sentence_data s = some r) :
    (r.unknown.card = 1 → s ∈ σ.bucket1 ∧ ∀ k, s ∉ σ.buckets k) ∧
    (r.unknown.card ≠ 1 → s ∈ σ.buckets r.unknown.card ∧ s ∉ σ.bucket1 ∧
      ∀ k, k ≠ r.unknown.card → s ∉ σ.buckets k) := by
  obtain ⟨⟨hB, -, -⟩, -⟩ := reach_inv hreach
  constructor
  · intro hc
    refine ⟨hB.mem1 s r h hc, fun k hk => ?_⟩
    have hk1 : r.unknown.card = k := hB.cardk k s hk r h
    rw [hc] at hk1
    rw [hB.low k (by omega)] at hk
    exact Finset.not_mem_empty s hk
  · intro hc
    refine ⟨hB.memk s r h hc, fun hb1 => hc (hB.card1 s hb1 r h),
      fun k hk hkmem => hk (hB.cardk k s hkmem r h).symm⟩

/-- Witness for claim C2 on a concrete run: in the initial organizer the
count-2 sentence "BC" is filed in bucket 2 and nowhere else. -/
theorem claim_C2_witness :
    (((⟨["B", "C"], {"B", "C"}, (5 : WithTop ℕ)⟩ : SentenceRec).unknown.card = 1 →
      "BC" ∈ exC3start.bucket1 ∧ ∀ k, "BC" ∉ exC3start.buckets k) ∧
    ((⟨["B", "C"], {"B", "C"}, (5 : WithTop ℕ)⟩ : SentenceRec).unknown.card ≠ 1 →
      "BC" ∈ exC3start.buckets
        (⟨["B", "C"], {"B", "C"}, (5 : WithTop ℕ)⟩ : SentenceRec).unknown.card ∧
      "BC" ∉ exC3start.bucket1 ∧
      ∀ k, k ≠ (⟨["B", "C"], {"B", "C"}, (5 : WithTop ℕ)⟩ : SentenceRec).unknown.card →
        "BC" ∉ exC3start.buckets k)) :=
  claim_C2_bucket_consistency Reach.init (by decide)

/-- Counterexample to claim C3 as stated (priority currency): in the
protocol-reachable state obtained by initializing over ["AB", "BC"] with
"A" known (ranks A=1, B=5, C=3) and then learning "AB", the live record of
"BC" has current unknown set {"C"}, whose maximum rank is 3, while its
stored priority `max_rank` is still 5 — the aggregation over its
creation-time unknown set {"B", "C"}.  The stored priority therefore does
not track the unknown set after it is shrunk by Learn() on another
sentence: `_update_buckets` never recomputes `max_rank`. -/
theorem claim_C3_counterexample :
    (getNext exC3start).1 = some "AB" ∧
    (exC3learn.map fun p => p.1.sentence_data "BC") =
      some (some ⟨["B", "C"], {"C"}, (5 : WithTop ℕ)⟩) ∧
    maxRankOf exRanks {"C"} = (3 : WithTop ℕ) ∧
    (5 : WithTop ℕ) ≠ (3 : WithTop ℕ) ∧
    (∀ σ' nw ws, exC3learn = some (σ', nw, ws) →
      Reach exRanks exSeg ["AB", "BC"] {"A"} σ') := by
  refine ⟨by decide, by decide, by decide, by decide, ?_⟩
  intro σ' nw ws h
  exact Reach.learn exC3start "AB" σ' nw ws Reach.init (by decide) h

/-- Claim C3 (amended): for every protocol-reachable state, every live
record's stored priority equals the maximum over the frequency ranks (⊤ for
a word absent from the table) of the words in its unknown set as of record
creation — its segmentation minus the initial known vocabulary — and it is
not recomputed as the unknown set later shrinks. -/
theorem claim_C3_amended_priority_at_creation {ranks : String → Option ℕ}
    {seg : String → List String} {corpus : List String} {initW : Finset String}
    {σ : OrgState} {s : String} {r : SentenceRec}
    (hreach : Reach ranks seg corpus initW σ)
    (h : σ.sentence_data s = some r) :
    r.words = seg s ∧
    r.max_rank = maxRankOf ranks ((seg s).toFinset \ (PUNCTUATION ∪ initW)) :=
  ⟨(reach_inv hreach).2.words_eq s r h, (reach_inv hreach).2.rank_eq s r h⟩

/-- Witness for amended claim C3 at a concrete record. -/
theorem claim_C3_amended_witness :
    (⟨["B", "C"], {"B", "C"}, (5 : WithTop ℕ)⟩ : SentenceRec).words = exSeg "BC" ∧
    (⟨["B", "C"], {"B", "C"}, (5 : WithTop ℕ)⟩ : SentenceRec).max_rank =
      maxRankOf exRanks ((exSeg "BC").toFinset \ (PUNCTUATION ∪ {"A"})) :=
  claim_C3_amended_priority_at_creation
    (show Reach exRanks exSeg ["AB", "BC"] {"A"} exC3start from Reach.init)
    (by decide)

/-- Claim C4 (exhaustion correctness): for every protocol-reachable state,
`get_next_sentence` returns the terminal signal `None` precisely when no
live record has exactly one unknown word at the moment of the call. -/
theorem claim_C4_exhaustion {ranks : String → Option ℕ}
    {seg : String → List String} {corpus : List String} {initW : Finset String}
    {σ : OrgState} (hreach : Reach ranks seg corpus initW σ) :
    (getNext σ).1 = none ↔
      ¬∃ s r, σ.sentence_data s = some r ∧ r.unknown.card = 1 := by
  obtain ⟨⟨hB, -, -⟩, -⟩ := reach_inv hreach
  rw [getNext_none_iff hB]
  constructor
  · rintro h ⟨s, r, hr, hc⟩
    exact h s r hr hc
  · intro h s r hr hc
    exact h ⟨s, r, hr, hc⟩

/-- Witness for claim C4 on a concrete exhausted state: the organizer over
["BC"] alone (two unknown words, empty frontier). -/
theorem claim_C4_witness :
    (getNext exEmptyFrontier).1 = none ↔
      ¬∃ s r, exEmptyFrontier.sentence_data s = some r ∧ r.unknown.card = 1 :=
  claim_C4_exhaustion Reach.init

/-- Claim C5 (known-vocabulary monotonicity): `learn_sentence` only ever
adds words to `known_words` (the result's known set is the old one united
with the newly learned words), and `get_next_sentence` — the only other
public operation — leaves it untouched.  No operation removes a word. -/
theorem claim_C5_known_monotone (σ : OrgState) :
    ((getNext σ).2).known_words = σ.known_words ∧
    ∀ s σ' nw ws, learnSentence σ s = some (σ', nw, ws) →
      σ.known_words ⊆ σ'.known_words := by
  refine ⟨(getNext_state σ).2.1, ?_⟩
  intro s σ' nw ws h
  rw [learnSentence_known h]
  exact Finset.subset_union_left

/-- Witness for claim C5 on a concrete `get_next_sentence` and
`learn_sentence` call. -/
theorem claim_C5_witness :
    ((getNext exC3start).2).known_words = exC3start.known_words ∧
    exC3mid.known_words ⊆ exC3next.known_words :=
  ⟨(claim_C5_known_monotone exC3start).1,
   (claim_C5_known_monotone exC3mid).2 "AB" exC3next {"B"} ["A", "B"] (by rfl)⟩

/-- Claim C6 (reverse-index shrinkage): after a `learn_sentence` call in
which W is among the newly learned words, the reverse index has no entry
for W, and W's entry is never recreated by later operations: any state in
which W is known and unindexed keeps both properties across
`get_next_sentence` and across any further `learn_sentence` call. -/
theorem claim_C6_reverse_index_shrinkage {σ σ' : OrgState} {s : String}
    {nw : Finset String} {ws : List String} {W : String}
    (h : learnSentence σ s = some (σ', nw, ws)) (hW : W ∈ nw) :
    σ'.word_to_sentences W = none ∧ W ∈ σ'.known_words ∧
    ∀ τ : OrgState, W ∈ τ.known_words → τ.word_to_sentences W = none →
      (W ∈ ((getNext τ).2).known_words ∧
        ((getNext τ).2).word_to_sentences W = none) ∧
      ∀ t τ' nw' ws', learnSentence τ t = some (τ', nw', ws') →
        W ∈ τ'.known_words ∧ τ'.word_to_sentences W = none := by
  refine ⟨?_, ?_, ?_⟩
  · rw [learnSentence_w2s h W, if_pos hW]
  · rw [learnSentence_known h]
    exact Finset.mem_union_right _ hW
  · intro τ hk hw
    refine ⟨⟨?_, ?_⟩, ?_⟩
    · rw [(getNext_state τ).2.1]
      exact hk
    · rw [(getNext_state τ).2.2.2]
      exact hw
    · intro t τ' nw' ws' h'
      refine ⟨?_, ?_⟩
      · rw [learnSentence_known h']
        exact Finset.mem_union_left _ hk
      · rw [learnSentence_w2s h' W]
        split
        · rfl
        · exact hw

/-- Witness for claim C6 on the concrete learn of "AB" (new word "B"). -/
theorem claim_C6_witness :
    exC3next.word_to_sentences "B" = none ∧ "B" ∈ exC3next.known_words := by
  have h := @claim_C6_reverse_index_shrinkage exC3mid exC3next "AB" {"B"}
    ["A", "B"] "B" (by rfl) (by decide)
  exact ⟨h.1, h.2.1⟩

/-- Claim C7 (Learn precondition enforcement): `learn_sentence` fails — the
`KeyError` raised by its very first statement, before any mutation, the
spec's `InvalidSelection` — exactly when the given sentence has no live
record; the caller's organizer state is untouched by the failed call (the
embedding returns no new state, matching the Python raise occurring before
any field is written). -/
theorem claim_C7_invalid_selection (σ : OrgState) (s : String) :
    learnSentence σ s = none ↔ σ.sentence_data s = none := by
  constructor
  · intro h
    cases hds : σ.sentence_data s with
    | none => rfl
    | some info =>
      obtain ⟨σ', nw, ws, h'⟩ := learnSentence_isSome hds
      rw [h'] at h
      cases h
  · exact learnSentence_of_dead

/-- Witness for claim C7: learning a never-indexed sentence fails. -/
theorem claim_C7_witness : learnSentence exC3start "ZZ" = none :=
  (claim_C7_invalid_selection exC3start "ZZ").mpr (by decide)

/-- Counterexample to claim C8 as stated (admission bounds): a sentence
whose segmentation has 25 target-script tokens, far above the claimed
maximum of 20, is nevertheless given a Sentence Record, filed in the
count-1 bucket, and registered in the reverse index under its tokens —
`_process_sentence` applies no token-count filter at all. -/
theorem claim_C8_counterexample :
    (exSegLong "L").length = 25 ∧
    exLong.sentence_data "L" =
      some ⟨exSegLong "L", {"z"}, (⊤ : WithTop ℕ)⟩ ∧
    "L" ∈ exLong.bucket1 ∧
    (exLong.word_to_sentences "z").getD ∅ = {"L"} := by
  refine ⟨by decide, by decide, by decide, by decide⟩

/-- Claim C8 (amended): initialization applies no token-count admission
bounds.  `_process_sentence` indexes a sentence exactly when its unknown
set (tokens minus the known vocabulary) is nonempty, regardless of how many
tokens it has — in particular a 25-token sentence with an unknown word is
indexed, and a fully known sentence of any length is skipped. -/
theorem claim_C8_amended_no_admission_bounds (ranks : String → Option ℕ)
    (σ : OrgState) (s : String) (words : List String) :
    (processSentence ranks σ s words).sentence_data s =
      if words.toFinset \ σ.known_words = ∅ then σ.sentence_data s
      else some ⟨words, words.toFinset \ σ.known_words,
        maxRankOf ranks (words.toFinset \ σ.known_words)⟩ := by
  split
  · rename_i he
    rw [processSentence_empty he]
  · rename_i he
    exact processSentence_data_self he

/-- Counterexample to claim C9 as stated (segmentation round-trip check):
a sentence whose token sequence fails `join(tokens) = text` is not reported
and not excluded — initialization indexes it exactly like any other
sentence.  No round-trip validation exists anywhere in the pipeline. -/
theorem claim_C9_counterexample :
    String.join (exSegBad "XY") ≠ "XY" ∧
    exBadSeg.sentence_data "XY" =
      some ⟨["Q"], {"Q"}, (⊤ : WithTop ℕ)⟩ ∧
    "XY" ∈ exBadSeg.bucket1 := by
  refine ⟨by decide, by decide, by decide⟩

/-- Claim C9 (amended): initialization performs no round-trip validation.
A sentence whose token sequence fails `join(tokens) = text` is processed
identically to any other: it is indexed whenever its unknown set is
nonempty, and processing of the remaining sentences proceeds (nothing
aborts). -/
theorem claim_C9_amended_no_roundtrip_check {ranks : String → Option ℕ}
    {σ : OrgState} {s : String} {words : List String}
    (hjoin : String.join words ≠ s)
    (hne : words.toFinset \ σ.known_words ≠ ∅) :
    (processSentence ranks σ s words).sentence_data s =
      some ⟨words, words.toFinset \ σ.known_words,
        maxRankOf ranks (words.toFinset \ σ.known_words)⟩ :=
  processSentence_data_self hne

/-- Witness for amended claim C9 at the concrete mis-segmented sentence. -/
theorem claim_C9_amended_witness :
    (processSentence exNoRanks exC3start "XY" ["Q"]).sentence_data "XY" =
      some ⟨["Q"], (["Q"] : List String).toFinset \ exC3start.known_words,
        maxRankOf exNoRanks ((["Q"] : List String).toFinset \ exC3start.known_words)⟩ :=
  claim_C9_amended_no_roundtrip_check (by decide) (by decide)

/-- Claim C10 (positional front-pop in `learn_sentence`): when a live
count-1 sentence `s` is learned, the element removed from the count-1
bucket is the bucket's current front, taken positionally
(`self.sentence_buckets[1].pop(0)`) rather than by identity.  Consequently,
if a different sentence `f` is at the front (live, not containing the
learned word, and without other occurrences in the bucket), the call evicts
`f` from the frontier — `f` keeps its live record but is no longer in the
bucket — while `s` itself stays in the bucket as a stale entry even though
its record is deleted. -/
theorem claim_C10_positional_front_pop {σ : OrgState} {s f : String}
    {r rf : SentenceRec} {rest : List String}
    (hb : σ.bucket1 = f :: rest) (hfs : f ≠ s)
    (hs : σ.sentence_data s = some r) (hcard : r.unknown.card = 1)
    (hf : σ.sentence_data f = some rf)
    (hsrest : s ∈ rest) (hfrest : f ∉ rest)
    (hw2s : ∀ w ∈ r.unknown, f ∉ (σ.word_to_sentences w).getD ∅) :
    ∃ σ', learnSentence σ s = some (σ', r.unknown, r.words) ∧
      f ∉ σ'.bucket1 ∧ s ∈ σ'.bucket1 ∧
      σ'.sentence_data f = some rf ∧ σ'.sentence_data s = none := by
  refine ⟨_, learnSentence_card1_eq hs hcard, ?_, ?_, ?_, ?_⟩ <;>
    · unfold updateBuckets
      set σc : OrgState := { σ with
        known_words := σ.known_words ∪ r.unknown
        bucket1 := σ.bucket1.tail
        sentence_data := fun t => if t = s then none else σ.sentence_data t } with hσc
      set σd : OrgState := { σc with
        word_to_sentences := fun w =>
          if w ∈ r.unknown then none else σc.word_to_sentences w } with hσd
      have hbd : σd.bucket1 = rest := by
        show σ.bucket1.tail = rest
        rw [hb]
        rfl
      have hfl : f ∉ enumFinset (r.unknown.sup fun w => (σc.word_to_sentences w).getD ∅) := by
        rw [mem_enumFinset]
        intro hmem
        obtain ⟨w, hw, hfw⟩ := Finset.mem_sup.mp hmem
        exact hw2s w hw hfw
      have hdf : σd.sentence_data f = some rf := by
        show (if f = s then none else σ.sentence_data f) = some rf
        rw [if_neg hfs, hf]
      have hdsnone : σd.sentence_data s = none := by
        show (if s = s then none else σ.sentence_data s) = none
        rw [if_pos rfl]
      first
      | · -- f not in the resulting frontier
          apply processAffected_b1_notmem _ hfl
          rw [hbd]
          exact hfrest
      | · -- s remains in the bucket as a stale entry
          apply processAffected_b1_dead_mem hdsnone
          rw [hbd]
          exact hsrest
      | · -- f's record is untouched
          rw [processAffected_data_notmem hfl]
          exact hdf
      | · -- s's record is gone
          exact processAffected_data_none hdsnone

/-- Witness for claim C10: in the organizer over ["AB", "CD"] (both
frontier sentences), learning the non-front sentence "CD" evicts the front
sentence "AB" from the bucket while "CD" stays in it. -/
theorem claim_C10_witness :
    ∃ σ', learnSentence exTwoFrontier "CD" =
        some (σ', (⟨["C", "D"], {"D"}, (4 : WithTop ℕ)⟩ : SentenceRec).unknown,
          (⟨["C", "D"], {"D"}, (4 : WithTop ℕ)⟩ : SentenceRec).words) ∧
      "AB" ∉ σ'.bucket1 ∧ "CD" ∈ σ'.bucket1 ∧
      σ'.sentence_data "AB" = some ⟨["A", "B"], {"B"}, (5 : WithTop ℕ)⟩ ∧
      σ'.sentence_data "CD" = none :=
  @claim_C10_positional_front_pop exTwoFrontier "CD" "AB"
    ⟨["C", "D"], {"D"}, (4 : WithTop ℕ)⟩ ⟨["A", "B"], {"B"}, (5 : WithTop ℕ)⟩
    ["CD"] (by decide) (by decide) (by decide) (by decide) (by decide)
    (by decide) (by decide) (by decide)

/-- Witness for amended claim C8 at a concrete admission. -/
theorem claim_C8_amended_witness :
    (processSentence exNoRanks exC3start "XY" ["Q"]).sentence_data "XY" =
      if (["Q"] : List String).toFinset \ exC3start.known_words = ∅ then
        exC3start.sentence_data "XY"
      else some ⟨["Q"], (["Q"] : List String).toFinset \ exC3start.known_words,
        maxRankOf exNoRanks ((["Q"] : List String).toFinset \ exC3start.known_words)⟩ :=
  claim_C8_amended_no_admission_bounds exNoRanks exC3start "XY" ["Q"]
